import Mathlib

/-!
# Polynomial secret reconstruction (`polynomial_secret.go`)

A shallow embedding of the two core routines of the program:

* `lagrangeInterpolation` : the Lagrange evaluation at `x = 0` over `math/big`
  integers, with one `big.Int.Div` per term;
* `decodeValue` : radix decoding through `big.Int.SetString`.

`*big.Int` values are modelled by `Int`, Go slices by `List`, Go `int` by `Int`
(only comparisons are performed on it), and a run-time panic by `Except.error`.
-/

namespace PolynomialSecret

/-! ## Data model -/

/-- Point represents a decoded `(x, y)` point (`type Point struct`). -/
structure Point where
  X : Int
  Y : Int
deriving DecidableEq, Repr

/-- Run-time panics that the code can raise instead of returning. -/
inductive Panic where
  /-- Raised by `big.Int.Div` when the divisor is zero. -/
  | divisionByZero
  /-- Raised by the slice expression `points[:k]` when `k` is negative. -/
  | sliceBoundsOutOfRange
  /-- Raised by the `math/big` scanner: "invalid number base". -/
  | invalidNumberBase
  /-- Raised by the `math/big` text conversion: "invalid base". -/
  | invalidBase
deriving DecidableEq, Repr

/-! ## The interpolator -/

/-- Element `points[i]` of the slice; indices used by the loops are always in range. -/
def pointAt (points : List Point) (i : Nat) : Point :=
  points.getD i ⟨0, 0⟩

/-- One step of the inner loop body (lines 131-139): for `i != j` multiply the
numerator by `-x_j` and the denominator by `x_i - x_j`. -/
def innerStep (points : List Point) (i : Nat) (nd : Int × Int) (j : Nat) : Int × Int :=
  if i ≠ j then
    (nd.1 * (-(pointAt points j).X), nd.2 * ((pointAt points i).X - (pointAt points j).X))
  else nd

/-- The inner loop `for j := 0; j < len(points); j++` (lines 127-140), started from
`numerator = y_i`, `denominator = 1`; returns `(numerator, denominator)`. -/
def innerLoop (points : List Point) (i : Nat) : Int × Int :=
  (List.range points.length).foldl (innerStep points i) ((pointAt points i).Y, 1)

/-- The outer loop `for i := 0; i < len(points); i++` (lines 125-145) over the
remaining indices, with the running `result`.  `big.Int.Div` is Euclidean division
and panics on a zero divisor. -/
def outerLoop (points : List Point) : List Nat → Int → Except Panic Int
  | [], result => Except.ok result
  | i :: rest, result =>
    if (innerLoop points i).2 = 0 then Except.error Panic.divisionByZero
    else
      outerLoop points rest
        (result + Int.ediv (innerLoop points i).1 (innerLoop points i).2)

/-- Lagrange interpolation `lagrangeInterpolation(points, k)` (lines 117-148). -/
def lagrangeInterpolation (points : List Point) (k : Int) : Except Panic Int :=
  if (points.length : Int) > k then
    if k < 0 then Except.error Panic.sliceBoundsOutOfRange
    else
      outerLoop (points.take k.toNat) (List.range (points.take k.toNat).length) 0
  else outerLoop points (List.range points.length) 0

/-- The term that the outer loop adds for a point `p`, written over the list of the
other selected points: the Euclidean quotient of `y * Π (-x_q)` by `Π (x - x_q)`. -/
def termOf (p : Point) (others : List Point) : Int :=
  Int.ediv (p.Y * (others.map (fun q => -q.X)).prod) ((others.map (fun q => p.X - q.X)).prod)

/-! ## Specification-side definitions: the exact rational Lagrange value -/

/-- The product `Π_{j ≠ i} (-x_j)` over the indices of `points`, as a rational. -/
def numProdQ (points : List Point) (i : Nat) : ℚ :=
  (((List.range points.length).filter (fun j => j ≠ i)).map
    (fun j => -((pointAt points j).X : ℚ))).prod

/-- The product `Π_{j ≠ i} (x_i - x_j)` over the indices of `points`, as a rational. -/
def denProdQ (points : List Point) (i : Nat) : ℚ :=
  (((List.range points.length).filter (fun j => j ≠ i)).map
    (fun j => ((pointAt points i).X : ℚ) - ((pointAt points j).X : ℚ))).prod

/-- The exact rational sum `S = Σ_i y_i * Π_{j≠i}(-x_j) / Π_{j≠i}(x_i - x_j)` over all
the points of the list. -/
def lagrangeSumQ (points : List Point) : ℚ :=
  ((List.range points.length).map
    (fun i => ((pointAt points i).Y : ℚ) * numProdQ points i / denProdQ points i)).sum

/-- Value `f(x)` of the integer polynomial with coefficient list `coeffs`
(constant term first). -/
def evalPoly (coeffs : List Int) (x : Int) : Int :=
  coeffs.foldr (fun c acc => c + x * acc) 0

/-- The points `(x, f(x))` of a polynomial at the given abscissas. -/
def pointsOf (coeffs : List Int) (xs : List Int) : List Point :=
  xs.map (fun x => ⟨x, evalPoly coeffs x⟩)

/-! ## The coordinate decoder

`decodeValue` delegates to `(*big.Int).SetString` of the Go standard library.  The
library routine is modelled here after its documented behaviour and its reference
implementation (`Int.SetString`, `Int.scan`, `scanSign`, `nat.scan` with
`fracOk = false`).  Go strings are byte strings; a character outside ASCII is a run
of bytes none of which is a digit, so scanning characters gives the same result. -/

/-- Largest base accepted by the scanner (`big.MaxBase`). -/
def MaxBase : Nat := 62

/-- Largest base for which upper and lower case letters agree (`maxBaseSmall`). -/
def maxBaseSmall : Nat := 36

/-- Digit value `d1` of a byte in `nat.scan`: `0-9`, then `a-z` for 10..35, and `A-Z`
for 10..35 when `b <= maxBaseSmall` (36..61 otherwise); `MaxBase + 1` for any other
byte. -/
def digitVal (ch : Char) (b : Nat) : Nat :=
  if '0'.toNat ≤ ch.toNat ∧ ch.toNat ≤ '9'.toNat then ch.toNat - '0'.toNat
  else if 'a'.toNat ≤ ch.toNat ∧ ch.toNat ≤ 'z'.toNat then ch.toNat - 'a'.toNat + 10
  else if 'A'.toNat ≤ ch.toNat ∧ ch.toNat ≤ 'Z'.toNat then
    if b ≤ maxBaseSmall then ch.toNat - 'A'.toNat + 10
    else ch.toNat - 'A'.toNat + maxBaseSmall
  else MaxBase + 1

/-- State of the digit loop of `nat.scan`. -/
structure ScanState where
  /-- The value accumulated so far (`z`, with the pending word `di` folded in). -/
  acc : Nat
  /-- The previously seen kind of character: `'_'`, `'0'` (a digit) or `'.'`. -/
  prev : Char
  /-- Whether a misplaced separator was seen (`invalSep`). -/
  invalSep : Bool
  /-- Number of digits consumed (`count`). -/
  count : Nat
deriving DecidableEq, Repr

/-- The digit loop `for err == nil` of `nat.scan`, over the unread input (look-ahead
character first).  Returns the final state and the input left unread: the loop stops
at end of input, or at the first byte that is not a digit of base `b`, which is
pushed back (`r.UnreadByte()`).  The library collects digits in word-sized groups
before adding them to `z`; arithmetically that is `z = z*b + d1` per digit. -/
def scanDigits (base : Int) (b : Nat) : List Char → ScanState → ScanState × List Char
  | [], st => (st, [])
  | ch :: rest, st =>
    if ch = '_' ∧ base = 0 then
      scanDigits base b rest
        { st with prev := '_', invalSep := st.invalSep || (st.prev != '0') }
    else if digitVal ch b ≥ b then (st, ch :: rest)
    else
      scanDigits base b rest
        { st with acc := st.acc * b + digitVal ch b, prev := '0', count := st.count + 1 }

/-- Errors of the scanner (`errNoDigits`, `errInvalSep`, and `io.EOF` from the sign scan). -/
inductive ScanError where
  | noDigits
  | invalSep
  | eof
deriving DecidableEq, Repr

/-- Base detection of `nat.scan` for `base == 0`: returns the actual base `b`, the
recognised marker (`'b'`, `'o'`, `'x'`, `'0'`, or `none`), the initial `prev` and
`count`, and the input from the look-ahead character on. -/
def scanBase (r : List Char) : Nat × Option Char × Char × Nat × List Char :=
  match r with
  | '0' :: ch :: rest =>
    if ch = 'b' ∨ ch = 'B' then (2, some 'b', '0', 0, rest)
    else if ch = 'o' ∨ ch = 'O' then (8, some 'o', '0', 0, rest)
    else if ch = 'x' ∨ ch = 'X' then (16, some 'x', '0', 0, rest)
    else (8, some '0', '0', 0, ch :: rest)
  | ['0'] => (10, none, '0', 1, [])
  | _ => (10, none, '.', 0, r)

/-- The scanner `nat.scan(r, base, false)`: panics on a base other than 0 and
2..MaxBase; otherwise returns the scanned magnitude, the error if any, and the
unread input. -/
def natScan (r : List Char) (base : Int) :
    Except Panic (Nat × Option ScanError × List Char) :=
  if ¬ (base = 0 ∨ (2 ≤ base ∧ base ≤ (MaxBase : Int))) then
    Except.error Panic.invalidNumberBase
  else
    let start : Nat × Option Char × Char × Nat × List Char :=
      if base = 0 then scanBase r else (base.toNat, none, '.', 0, r)
    let b := start.1
    let marker := start.2.1
    let out := scanDigits base b start.2.2.2.2 ⟨0, start.2.2.1, false, start.2.2.2.1⟩
    let st := out.1
    let err : Option ScanError :=
      if st.invalSep || (st.prev == '_') then some ScanError.invalSep else none
    if st.count = 0 then
      if marker = some '0' then Except.ok (0, err, out.2)
      else Except.ok (st.acc, some ScanError.noDigits, out.2)
    else Except.ok (st.acc, err, out.2)

/-- The sign scan `scanSign(r)`: end of input is an error; a leading `-` or `+` is
consumed, any other byte is pushed back. -/
def scanSign (r : List Char) : Option (Bool × List Char) :=
  match r with
  | [] => none
  | ch :: rest =>
    if ch = '-' then some (true, rest)
    else if ch = '+' then some (false, rest)
    else some (false, ch :: rest)

/-- The call `z.SetString(s, base)` on a freshly allocated receiver (`new(big.Int)`,
value 0): returns the value held by the receiver afterwards and the success flag.
On failure the documentation leaves the receiver unspecified; the reference
implementation leaves in it the magnitude scanned before the failure was detected
(the sign is only stored when the scan itself succeeds). -/
def SetString (s : List Char) (base : Int) : Except Panic (Int × Bool) :=
  match scanSign s with
  | none => Except.ok (0, false)
  | some (neg, r) =>
    match natScan r base with
    | Except.error p => Except.error p
    | Except.ok (abs, some _, _) => Except.ok ((abs : Int), false)
    | Except.ok (abs, none, rest) =>
      let z : Int := if 0 < abs ∧ neg then -(abs : Int) else (abs : Int)
      Except.ok (z, rest.isEmpty)

/-- The Go function `decodeValue(value, base)` (lines 68-72): the flag returned by
`SetString` is discarded and the error returned is always `nil` (`none`). -/
def decodeValue (value : String) (base : Int) : Except Panic (Int × Option String) :=
  match SetString value.data base with
  | Except.error p => Except.error p
  | Except.ok (result, _) => Except.ok (result, none)

/-! ## Specification-side definitions: digit strings -/

/-- The value of a digit character in the alphabet `0-9`, then `a-z` for 10..35. -/
def specDigit (c : Char) : Nat :=
  if c.toNat ≤ '9'.toNat then c.toNat - '0'.toNat else c.toNat - 'a'.toNat + 10

/-- A character is a valid digit of base `b`: it is one of `0-9`, `a-z` and its
value is below `b`. -/
def ValidDigit (b : Int) (c : Char) : Prop :=
  (('0'.toNat ≤ c.toNat ∧ c.toNat ≤ '9'.toNat) ∨ ('a'.toNat ≤ c.toNat ∧ c.toNat ≤ 'z'.toNat))
    ∧ (specDigit c : Int) < b

instance (b : Int) (c : Char) : Decidable (ValidDigit b c) := by
  unfold ValidDigit; infer_instance

/-- The positional value `Σ_i digit(s_i) * b^(len(s)-1-i)` of a digit string. -/
def positionalValue (s : List Char) (b : Int) : Int :=
  ∑ i in Finset.range s.length, (specDigit (s.getD i '0') : Int) * b ^ (s.length - 1 - i)

/-! ## Rendering an integer in a base

`(*big.Int).Text(base)` of the Go standard library, modelled after its documented
behaviour and its reference implementation (`nat.itoa`): digits `0-9`, `a-z`, `A-Z`
for the values 0..61, most significant first, no leading zeros, `-` before a negative
value, and `0` for zero. -/

/-- The digit alphabet of `nat.itoa` (the constant `digits`). -/
def digitAlphabet : List Char :=
  "0123456789abcdefghijklmnopqrstuvwxyzABCDEFGHIJKLMNOPQRSTUVWXYZ".data

/-- The conversion `x.itoa(neg, base)`: panics on a base outside 2..MaxBase.  The
library produces the digits by repeated division; they are the base-`base` digits of
`x`, here taken from `Nat.digits` (least significant first) and reversed. -/
def itoa (x : Nat) (neg : Bool) (base : Int) : Except Panic (List Char) :=
  if base < 2 ∨ base > (MaxBase : Int) then Except.error Panic.invalidBase
  else if x = 0 then Except.ok ['0']
  else
    Except.ok ((if neg then ['-'] else []) ++
      (Nat.digits base.toNat x).reverse.map (fun d => digitAlphabet.getD d '0'))

/-- The method `x.Text(base)` on a non-nil receiver. -/
def Text (x : Int) (base : Int) : Except Panic (List Char) :=
  itoa x.natAbs (decide (x < 0)) base

/-! ## Extraction of the points from a test case -/

/-- One root entry of the JSON document: `struct { Base string; Value string }`. -/
structure Root where
  Base : String
  Value : String
deriving DecidableEq, Repr

/-- TestCase represents the JSON structure.  The Go map `Roots` is given by its
entries in the order in which the `range` loop of `extractPoints` visits them; the
keys of a map are pairwise distinct. -/
structure TestCase where
  N : Int
  K : Int
  Roots : List (String × Root)
deriving Repr

/-- Size in bits of the Go type `int` (64-bit platforms). -/
def intSize : Nat := 64

/-- The digit loop of `strconv.Atoi`: decimal digits only, `none` on any other byte. -/
def atoiDigits : List Char → Nat → Option Nat
  | [], n => some n
  | ch :: rest, n =>
    if '0'.toNat ≤ ch.toNat ∧ ch.toNat ≤ '9'.toNat then
      atoiDigits rest (n * 10 + (ch.toNat - '0'.toNat))
    else none

/-- The library function `strconv.Atoi(s)`, modelled after its documentation: an
optional sign followed by one or more decimal digits, the value within the range of
`int`; `none` stands for a non-nil error (syntax or range). -/
def Atoi (s : List Char) : Option Int :=
  let parts : Bool × List Char :=
    match s with
    | '-' :: t => (true, t)
    | '+' :: t => (false, t)
    | _ => (false, s)
  if parts.2 = [] then none
  else
    match atoiDigits parts.2 0 with
    | none => none
    | some n =>
      let v : Int := if parts.1 then -(n : Int) else (n : Int)
      if -(2 ^ (intSize - 1) : Int) ≤ v ∧ v < (2 ^ (intSize - 1) : Int) then some v else none

/-- The loop `for xStr, root := range testCase.Roots` of `extractPoints` (lines 93-111)
over the remaining entries, with the slice `points` built so far.  The inner result
is the Go pair `([]Point, error)`: `Except.error msg` for `(nil, err)`. -/
def extractLoop :
    List (String × Root) → List Point → Except Panic (Except String (List Point))
  | [], points => Except.ok (Except.ok points)
  | (xStr, root) :: rest, points =>
    match SetString xStr.data 10 with
    | Except.error p => Except.error p
    | Except.ok (x, _) =>
      match Atoi root.Base.data with
      | none => Except.ok (Except.error ("invalid base: " ++ root.Base))
      | some base =>
        match decodeValue root.Value base with
        | Except.error p => Except.error p
        | Except.ok (_, some _) =>
          Except.ok (Except.error
            ("failed to decode value: " ++ root.Value ++ " in base " ++ toString base))
        | Except.ok (y, none) => extractLoop rest (points ++ [⟨x, y⟩])

/-- The Go function `extractPoints(testCase)` (lines 90-114). -/
def extractPoints (testCase : TestCase) : Except Panic (Except String (List Point)) :=
  extractLoop testCase.Roots []

/-- The value left in `x` by `x.SetString(xStr, 10)` for a root key (lines 95-96). -/
def keyX (xStr : String) : Int :=
  match SetString xStr.data 10 with
  | Except.ok (x, _) => x
  | Except.error _ => 0

/-! ## Specification-side definitions: strings -/

/-- A digit string with its leading zeros removed, or `0` when nothing is left. -/
def stripLeadingZeros (s : List Char) : List Char :=
  if s.dropWhile (fun c => c = '0') = [] then ['0'] else s.dropWhile (fun c => c = '0')

/-- The string with its letters upper-cased. -/
def upperCased (s : String) : String :=
  String.mk (s.data.map Char.toUpper)

/-- The string with its letters lower-cased. -/
def lowerCased (s : String) : String :=
  String.mk (s.data.map Char.toLower)

/-- A canonical decimal numeral: a non-empty string of digits `0-9` without sign and
without a leading zero, except the numeral `0` itself. -/
def CanonicalDecimal (s : List Char) : Prop :=
  s ≠ [] ∧ (∀ c ∈ s, '0'.toNat ≤ c.toNat ∧ c.toNat ≤ '9'.toNat) ∧
    (s.head? = some '0' → s = ['0'])

instance (s : List Char) : Decidable (CanonicalDecimal s) := by
  unfold CanonicalDecimal; infer_instance

/-! ## Lemmas on the interpolation loops -/

/-- The numerator left by the inner loop over the index list `js`. -/
theorem foldl_innerStep_fst (points : List Point) (i : Nat) (js : List Nat) (nd : Int × Int) :
    (js.foldl (innerStep points i) nd).1 =
      nd.1 * ((js.filter (fun j => j ≠ i)).map (fun j => -(pointAt points j).X)).prod := by
  induction js generalizing nd with
  | nil => simp
  | cons j js ih =>
    rw [List.foldl_cons, ih]
    by_cases h : j = i
    · subst h; simp [innerStep]
    · have h2 : i ≠ j := fun e => h e.symm
      simp [innerStep, h, h2, mul_assoc]

/-- The denominator left by the inner loop over the index list `js`. -/
theorem foldl_innerStep_snd (points : List Point) (i : Nat) (js : List Nat) (nd : Int × Int) :
    (js.foldl (innerStep points i) nd).2 =
      nd.2 * ((js.filter (fun j => j ≠ i)).map
        (fun j => (pointAt points i).X - (pointAt points j).X)).prod := by
  induction js generalizing nd with
  | nil => simp
  | cons j js ih =>
    rw [List.foldl_cons, ih]
    by_cases h : j = i
    · subst h; simp [innerStep]
    · have h2 : i ≠ j := fun e => h e.symm
      simp [innerStep, h, h2, mul_assoc]

/-- The denominator of term `i` is `Π_{j ≠ i} (x_i - x_j)`. -/
theorem innerLoop_snd (points : List Point) (i : Nat) :
    (innerLoop points i).2 =
      (((List.range points.length).filter (fun j => j ≠ i)).map
        (fun j => (pointAt points i).X - (pointAt points j).X)).prod := by
  simp [innerLoop, foldl_innerStep_snd]

/-- The numerator of term `i` is `y_i * Π_{j ≠ i} (-x_j)`. -/
theorem innerLoop_fst (points : List Point) (i : Nat) :
    (innerLoop points i).1 =
      (pointAt points i).Y *
        (((List.range points.length).filter (fun j => j ≠ i)).map
          (fun j => -(pointAt points j).X)).prod := by
  simp [innerLoop, foldl_innerStep_fst]

/-- The denominator of term `i` vanishes exactly when another index carries the same `x`. -/
theorem innerLoop_snd_eq_zero_iff (points : List Point) (i : Nat) :
    (innerLoop points i).2 = 0 ↔
      ∃ j, j < points.length ∧ j ≠ i ∧ (pointAt points i).X = (pointAt points j).X := by
  rw [innerLoop_snd, List.prod_eq_zero_iff]
  simp only [List.mem_map, List.mem_filter, List.mem_range, decide_eq_true_eq]
  constructor
  · rintro ⟨j, ⟨hj, hne⟩, h0⟩
    exact ⟨j, hj, hne, by omega⟩
  · rintro ⟨j, hj, hne, hx⟩
    exact ⟨j, ⟨hj, hne⟩, by omega⟩

/-- The x-coordinate at an index in range, through the list of x-coordinates. -/
theorem pointAt_X (points : List Point) (i : Nat) (hi : i < points.length) :
    (pointAt points i).X = (points.map Point.X).get ⟨i, by simpa using hi⟩ := by
  simp [pointAt, List.getElem?_eq_getElem hi]

/-- With pairwise distinct x-coordinates no denominator vanishes. -/
theorem innerLoop_snd_ne_zero (points : List Point) (hnd : (points.map Point.X).Nodup)
    (i : Nat) (hi : i < points.length) : (innerLoop points i).2 ≠ 0 := by
  rw [Ne, innerLoop_snd_eq_zero_iff]
  rintro ⟨j, hj, hne, hx⟩
  rw [pointAt_X points i hi, pointAt_X points j hj] at hx
  have := (List.Nodup.get_inj_iff hnd).1 hx
  exact hne (by simpa using (congrArg Fin.val this).symm)

/-- With a repeated x-coordinate some denominator vanishes. -/
theorem exists_innerLoop_snd_eq_zero (points : List Point)
    (hdup : ¬ (points.map Point.X).Nodup) :
    ∃ i, i < points.length ∧ (innerLoop points i).2 = 0 := by
  rw [List.nodup_iff_injective_get] at hdup
  simp only [Function.Injective, not_forall] at hdup
  obtain ⟨a, b, hab, hne⟩ := hdup
  have ha : a.val < points.length := by simpa using a.isLt
  have hb : b.val < points.length := by simpa using b.isLt
  refine ⟨a.val, ha, (innerLoop_snd_eq_zero_iff points a.val).2 ⟨b.val, hb, ?_, ?_⟩⟩
  · intro e; exact hne (Fin.ext e.symm)
  · rw [pointAt_X points a.val ha, pointAt_X points b.val hb]; exact hab

/-- The outer loop returns the sum of the Euclidean quotients when no denominator
among the remaining indices vanishes. -/
theorem outerLoop_ok (points : List Point) (idx : List Nat) (result : Int)
    (h : ∀ i ∈ idx, (innerLoop points i).2 ≠ 0) :
    outerLoop points idx result =
      Except.ok (result +
        (idx.map (fun i => Int.ediv (innerLoop points i).1 (innerLoop points i).2)).sum) := by
  induction idx generalizing result with
  | nil => simp [outerLoop]
  | cons i rest ih =>
    have hi := h i (List.mem_cons_self _ _)
    have hr : ∀ j ∈ rest, (innerLoop points j).2 ≠ 0 :=
      fun j hj => h j (List.mem_cons_of_mem _ hj)
    simp [outerLoop, hi, ih _ hr, add_assoc]

/-- The outer loop panics with a division by zero when some denominator among the
remaining indices vanishes. -/
theorem outerLoop_panic (points : List Point) (idx : List Nat) (result : Int)
    (h : ∃ i ∈ idx, (innerLoop points i).2 = 0) :
    outerLoop points idx result = Except.error Panic.divisionByZero := by
  induction idx generalizing result with
  | nil => simp at h
  | cons i rest ih =>
    by_cases hi : (innerLoop points i).2 = 0
    · simp [outerLoop, hi]
    · obtain ⟨j, hj, hj0⟩ := h
      rcases List.mem_cons.1 hj with e | hj2
      · exact absurd (e ▸ hj0) hi
      · simp [outerLoop, hi, ih _ ⟨j, hj2, hj0⟩]

/-- The points actually used by `lagrangeInterpolation` for `k >= 0`: the first `k`. -/
theorem lagrangeInterpolation_eq_outerLoop (points : List Point) (k : Int) (hk : 0 ≤ k) :
    lagrangeInterpolation points k =
      outerLoop (points.take k.toNat) (List.range (points.take k.toNat).length) 0 := by
  unfold lagrangeInterpolation
  by_cases h : (points.length : Int) > k
  · simp [h, not_lt.2 hk]
  · have hle : points.length ≤ k.toNat := by omega
    simp [h, List.take_of_length_le hle]

/-! ## Claims on the interpolator -/

/-- C1 (evaluation at the failing input): for the points `(1,2), (2,5), (4,17)` and
`k = 3` the x-coordinates are pairwise distinct and the exact rational Lagrange sum is
the integer `1`, yet `lagrangeInterpolation` returns `0`, because each term is
divided separately with `big.Int.Div`. -/
theorem lagrangeInterpolation_not_exact_sum :
    (([⟨1, 2⟩, ⟨2, 5⟩, ⟨4, 17⟩] : List Point).map Point.X).Nodup ∧
    lagrangeSumQ [⟨1, 2⟩, ⟨2, 5⟩, ⟨4, 17⟩] = ((1 : Int) : ℚ) ∧
    lagrangeInterpolation [⟨1, 2⟩, ⟨2, 5⟩, ⟨4, 17⟩] 3 = Except.ok 0 := by
  refine ⟨by decide, ?_, rfl⟩
  simp [lagrangeSumQ, numProdQ, denProdQ, pointAt, List.range, List.range.loop, List.filter]
  norm_num

/-- C2 (evaluation at the failing input): for `f(x) = x` (degree 1, at most `k - 1`
for `k = 3`) the points at `x = 1, 2, 4` give `-1` instead of `f(0) = 0`, while the
points at `x = 1, 2, 3` of the same polynomial give `0`: the result is neither the
constant term nor the same across 3-subsets. -/
theorem lagrangeInterpolation_not_constant_term :
    evalPoly [0, 1] 0 = 0 ∧
    pointsOf [0, 1] [1, 2, 4] = [⟨1, 1⟩, ⟨2, 2⟩, ⟨4, 4⟩] ∧
    lagrangeInterpolation (pointsOf [0, 1] [1, 2, 4]) 3 = Except.ok (-1) ∧
    lagrangeInterpolation (pointsOf [0, 1] [1, 2, 3]) 3 = Except.ok 0 := by
  exact ⟨rfl, rfl, rfl, rfl⟩

/-- C3: the points `(1,4), (2,7), (3,12)` with `k = 3` interpolate to `3`. -/
theorem lagrangeInterpolation_concrete_scenario :
    lagrangeInterpolation [⟨1, 4⟩, ⟨2, 7⟩, ⟨3, 12⟩] 3 = Except.ok 3 := by
  rfl

/-- C4: for a non-empty list of points and `k = 1` the result is the `y` of the first
point, whatever its `x` and whatever the remaining points are. -/
theorem lagrangeInterpolation_k_one (p : Point) (rest : List Point) :
    lagrangeInterpolation (p :: rest) 1 = Except.ok p.Y := by
  rw [lagrangeInterpolation_eq_outerLoop _ _ (by norm_num)]
  have h1 : (1 : Int).toNat = 1 := rfl
  have hediv : Int.ediv p.Y 1 = p.Y := Int.ediv_one p.Y
  simp [h1, outerLoop, innerLoop, innerStep, pointAt, List.range, List.range.loop, hediv]

/-- C5 (counterexample): for the points `(1,0), (3,1)` and `k = 2` the x-coordinates are
distinct and the exact rational Lagrange sum is `-1/2`, not an integer, yet
`lagrangeInterpolation` returns the integer `-1` and signals no failure. -/
theorem lagrangeInterpolation_non_integral_returns :
    (([⟨1, 0⟩, ⟨3, 1⟩] : List Point).map Point.X).Nodup ∧
    (∀ z : Int, lagrangeSumQ [⟨1, 0⟩, ⟨3, 1⟩] ≠ (z : ℚ)) ∧
    lagrangeInterpolation [⟨1, 0⟩, ⟨3, 1⟩] 2 = Except.ok (-1) := by
  refine ⟨by decide, ?_, rfl⟩
  have hS : lagrangeSumQ [⟨1, 0⟩, ⟨3, 1⟩] = -1 / 2 := by
    simp [lagrangeSumQ, numProdQ, denProdQ, pointAt, List.range, List.range.loop, List.filter]
    norm_num
  intro z hz
  rw [hS] at hz
  have h2 : ((2 * z : Int) : ℚ) = ((-1 : Int) : ℚ) := by
    push_cast
    linarith
  have h3 : 2 * z = -1 := by exact_mod_cast h2
  omega

/-- C5 (amended): whenever the selected points (the first `k`) have pairwise distinct
x-coordinates, `lagrangeInterpolation` returns an integer and signals no failure,
whether or not the exact rational Lagrange sum is an integer. -/
theorem lagrangeInterpolation_returns_integer (points : List Point) (k : Int) (hk : 0 ≤ k)
    (hnd : ((points.take k.toNat).map Point.X).Nodup) :
    ∃ v : Int, lagrangeInterpolation points k = Except.ok v := by
  rw [lagrangeInterpolation_eq_outerLoop points k hk]
  refine ⟨_, outerLoop_ok _ _ 0 ?_⟩
  intro i hi
  exact innerLoop_snd_ne_zero _ hnd i (List.mem_range.1 hi)

/-- Witness of the amended C5 at the points `(1,0), (3,1)` with `k = 2`. -/
theorem lagrangeInterpolation_returns_integer_witness :
    ∃ v : Int, lagrangeInterpolation [⟨1, 0⟩, ⟨3, 1⟩] 2 = Except.ok v :=
  lagrangeInterpolation_returns_integer [⟨1, 0⟩, ⟨3, 1⟩] 2 (by decide) (by decide)

/-- C6 (counterexample): for the points `(2,3), (2,8)` and `k = 2` the two selected
points share `x = 2`; the denominator of the first term is `2 - 2 = 0` and the call
ends in the run-time panic of `big.Int.Div` (division by zero).  The function has
the single result `*big.Int` and no error result, so what the caller gets is an
unrecovered panic, not a DuplicateAbscissa error value. -/
theorem lagrangeInterpolation_duplicate_x_panics :
    ¬ (([⟨2, 3⟩, ⟨2, 8⟩] : List Point).map Point.X).Nodup ∧
    (innerLoop [⟨2, 3⟩, ⟨2, 8⟩] 0).2 = 0 ∧
    lagrangeInterpolation [⟨2, 3⟩, ⟨2, 8⟩] 2 = Except.error Panic.divisionByZero := by
  exact ⟨by decide, rfl, rfl⟩

/-- C6 (amended): when two of the first `k` points share the same `x`,
`lagrangeInterpolation` does not return: the division by the zero denominator panics
(`big.Int.Div`, division by zero), and no integer result is ever returned. -/
theorem lagrangeInterpolation_duplicate_x (points : List Point) (k : Int)
    (hdup : ¬ ((points.take k.toNat).map Point.X).Nodup) :
    lagrangeInterpolation points k = Except.error Panic.divisionByZero ∧
      ∀ v : Int, lagrangeInterpolation points k ≠ Except.ok v := by
  have hk : 0 ≤ k := by
    by_contra hneg
    have h0 : k.toNat = 0 := by omega
    simp [h0] at hdup
  have hp : lagrangeInterpolation points k = Except.error Panic.divisionByZero := by
    rw [lagrangeInterpolation_eq_outerLoop points k hk]
    obtain ⟨i, hi, h0⟩ := exists_innerLoop_snd_eq_zero _ hdup
    exact outerLoop_panic _ _ 0 ⟨i, List.mem_range.2 hi, h0⟩
  refine ⟨hp, ?_⟩
  intro v hv
  rw [hp] at hv
  cases hv

/-- Witness of the amended C6 at the points `(1,1), (1,2), (3,5)` with `k = 2`. -/
theorem lagrangeInterpolation_duplicate_x_witness :
    lagrangeInterpolation [⟨1, 1⟩, ⟨1, 2⟩, ⟨3, 5⟩] 2 = Except.error Panic.divisionByZero ∧
      ∀ v : Int, lagrangeInterpolation [⟨1, 1⟩, ⟨1, 2⟩, ⟨3, 5⟩] 2 ≠ Except.ok v :=
  lagrangeInterpolation_duplicate_x [⟨1, 1⟩, ⟨1, 2⟩, ⟨3, 5⟩] 2 (by decide)

/-- C7 (counterexample): with the two points `(1,4), (2,7)` and `k = 3` there are fewer
than `k` points, yet `lagrangeInterpolation` returns the value `1` computed from the
two points available instead of failing. -/
theorem lagrangeInterpolation_fewer_points_returns :
    (([⟨1, 4⟩, ⟨2, 7⟩] : List Point).length : Int) < 3 ∧
    lagrangeInterpolation [⟨1, 4⟩, ⟨2, 7⟩] 3 = Except.ok 1 := by
  exact ⟨by decide, rfl⟩

/-- C7 (amended): when fewer than `k` points are available, `lagrangeInterpolation`
raises no InsufficientPoints failure: it proceeds with all the points available, so
its outcome is the one obtained with `k = len(points)`. -/
theorem lagrangeInterpolation_fewer_points (points : List Point) (k : Int)
    (hlt : (points.length : Int) < k) :
    lagrangeInterpolation points k = outerLoop points (List.range points.length) 0 ∧
    lagrangeInterpolation points k = lagrangeInterpolation points (points.length : Int) := by
  have h1 : ¬ ((points.length : Int) > k) := by omega
  constructor
  · simp [lagrangeInterpolation, h1]
  · simp [lagrangeInterpolation, h1]

/-- Witness of the amended C7 at the points `(1,4), (2,7)` with `k = 3`. -/
theorem lagrangeInterpolation_fewer_points_witness :
    lagrangeInterpolation [⟨1, 4⟩, ⟨2, 7⟩] 3
        = outerLoop [⟨1, 4⟩, ⟨2, 7⟩] (List.range ([⟨1, 4⟩, ⟨2, 7⟩] : List Point).length) 0 ∧
    lagrangeInterpolation [⟨1, 4⟩, ⟨2, 7⟩] 3
        = lagrangeInterpolation [⟨1, 4⟩, ⟨2, 7⟩]
            ((([⟨1, 4⟩, ⟨2, 7⟩] : List Point).length : Nat) : Int) :=
  lagrangeInterpolation_fewer_points [⟨1, 4⟩, ⟨2, 7⟩] 3 (by decide)

/-! ## Lemmas on the decoder -/

/-- A valid digit of the base is read by the scanner with its alphabet value, which is
below the base. -/
theorem digitVal_of_validDigit (b : Int) (c : Char) (hv : ValidDigit b c) :
    digitVal c b.toNat = specDigit c ∧ specDigit c < b.toNat := by
  have h0 : '0'.toNat = 48 := rfl
  have h9 : '9'.toNat = 57 := rfl
  have ha : 'a'.toNat = 97 := rfl
  have hz : 'z'.toNat = 122 := rfl
  obtain ⟨hrange, hlt⟩ := hv
  simp only [h0, h9, ha, hz] at hrange
  have hlt2 : specDigit c < b.toNat := by omega
  refine ⟨?_, hlt2⟩
  unfold digitVal specDigit
  simp only [h0, h9, ha, hz]
  rcases hrange with ⟨h1, h2⟩ | ⟨h1, h2⟩
  · simp [h1, h2]
  · have h3 : ¬ c.toNat ≤ 57 := by omega
    have h4 : ¬ (48 ≤ c.toNat ∧ c.toNat ≤ 57) := by omega
    simp [h1, h2, h3, h4]

/-- A valid digit is neither a sign nor a separator. -/
theorem validDigit_not_sign (b : Int) (c : Char) (hv : ValidDigit b c) :
    c ≠ '-' ∧ c ≠ '+' := by
  have h0 : '0'.toNat = 48 := rfl
  have ha : 'a'.toNat = 97 := rfl
  obtain ⟨hrange, _⟩ := hv
  simp only [h0, ha] at hrange
  constructor
  · rintro rfl
    have : '-'.toNat = 45 := rfl
    omega
  · rintro rfl
    have : '+'.toNat = 43 := rfl
    omega

/-- On a run of digits of the base the digit loop consumes the whole input and
accumulates the digits by the Horner rule. -/
theorem scanDigits_valid (base : Int) (b : Nat) (hbase : base ≠ 0) (l : List Char)
    (st : ScanState) (hl : ∀ c ∈ l, digitVal c b = specDigit c ∧ specDigit c < b) :
    scanDigits base b l st =
      (⟨l.foldl (fun a c => a * b + specDigit c) st.acc,
        if l = [] then st.prev else '0', st.invalSep, st.count + l.length⟩, []) := by
  induction l generalizing st with
  | nil => simp [scanDigits]
  | cons c t ih =>
    obtain ⟨hd, hlt⟩ := hl c (List.mem_cons_self _ _)
    have ht : ∀ x ∈ t, digitVal x b = specDigit x ∧ specDigit x < b :=
      fun x hx => hl x (List.mem_cons_of_mem _ hx)
    have hge : ¬ (digitVal c b ≥ b) := by omega
    rw [scanDigits]
    simp only [hbase, and_false, if_false, hge]
    rw [ih _ ht]
    simp [hd, Nat.add_assoc, Nat.add_comm 1]

/-- The positional value of a digit string with one more leading digit. -/
theorem positionalValue_cons (c : Char) (t : List Char) (b : Int) :
    positionalValue (c :: t) b = (specDigit c : Int) * b ^ t.length + positionalValue t b := by
  unfold positionalValue
  rw [List.length_cons, Finset.sum_range_succ']
  simp only [List.getD_cons_zero, List.getD_cons_succ]
  have e : ∀ i, t.length + 1 - 1 - (i + 1) = t.length - 1 - i := fun i => by omega
  simp only [e]
  simp [add_comm]

/-- The Horner accumulation of a digit string is its positional value. -/
theorem horner_eq_positionalValue (b : Nat) (l : List Char) (a : Nat) :
    ((l.foldl (fun a c => a * b + specDigit c) a : Nat) : Int) =
      (a : Int) * (b : Int) ^ l.length + positionalValue l (b : Int) := by
  induction l generalizing a with
  | nil => simp [positionalValue]
  | cons c t ih =>
    rw [List.foldl_cons, ih, positionalValue_cons]
    push_cast
    rw [List.length_cons]
    ring

/-- The decoder returns whatever `SetString` left in the receiver, with a nil error. -/
theorem decodeValue_err_nil (s : String) (b : Int) (r : Int × Option String)
    (h : decodeValue s b = Except.ok r) : r.2 = none := by
  unfold decodeValue at h
  split at h
  · cases h
  · cases h; rfl

/-! ## Claims on the decoder -/

/-- C8: for a base `b` in `[2, 36]` and a non-empty string of valid digits of base `b`
(`0-9`, then `a-z`), `decodeValue` returns without error the positional value
`Σ_i digit(s_i) * b^(len(s)-1-i)` as an unbounded integer; in particular
`decodeValue("10", 2) = 2`, `decodeValue("10", 16) = 16`, `decodeValue("ff", 16) = 255`. -/
theorem decodeValue_valid_digits (b : Int) (s : String) (hb2 : 2 ≤ b) (hb36 : b ≤ 36)
    (hne : s.data ≠ []) (hv : ∀ c ∈ s.data, ValidDigit b c) :
    decodeValue s b = Except.ok (positionalValue s.data b, none) ∧
    decodeValue "10" 2 = Except.ok (2, none) ∧
    decodeValue "10" 16 = Except.ok (16, none) ∧
    decodeValue "ff" 16 = Except.ok (255, none) := by
  refine ⟨?_, rfl, rfl, rfl⟩
  obtain ⟨c, t, hs⟩ := List.exists_cons_of_ne_nil hne
  have hc := validDigit_not_sign b c (hv c (by simp [hs]))
  have hsign : scanSign s.data = some (false, s.data) := by
    simp [hs, scanSign, hc.1, hc.2]
  have hb0 : b ≠ 0 := by omega
  have hbase : b = 0 ∨ (2 ≤ b ∧ b ≤ (MaxBase : Int)) := by
    simp only [MaxBase]; push_cast; omega
  have hl : ∀ x ∈ s.data, digitVal x b.toNat = specDigit x ∧ specDigit x < b.toNat :=
    fun x hx => digitVal_of_validDigit b x (hv x hx)
  have hlen : 0 < s.data.length := List.length_pos.2 hne
  have hcount : ¬ (0 + s.data.length = 0) := by omega
  have hval := horner_eq_positionalValue b.toNat s.data 0
  have hbnat : ((b.toNat : Nat) : Int) = b := Int.toNat_of_nonneg (by omega)
  rw [hbnat] at hval
  simp only [Int.ofNat_zero, zero_mul, zero_add, Nat.cast_zero] at hval
  have hnat : natScan s.data b =
      Except.ok (s.data.foldl (fun a c => a * b.toNat + specDigit c) 0, none, []) := by
    unfold natScan
    rw [if_neg (not_not.2 hbase)]
    simp only [hb0, if_false, scanDigits_valid b b.toNat hb0 s.data _ hl, hne, hcount]
    simp
  unfold decodeValue SetString
  rw [hsign]
  simp only [hnat]
  simp [hval]

/-- Witness of C8 at the string `zz` in base 36. -/
theorem decodeValue_valid_digits_witness :
    decodeValue "zz" 36 = Except.ok (positionalValue "zz".data 36, none) ∧
    decodeValue "10" 2 = Except.ok (2, none) ∧
    decodeValue "10" 16 = Except.ok (16, none) ∧
    decodeValue "ff" 16 = Except.ok (255, none) :=
  decodeValue_valid_digits 36 "zz" (by decide) (by decide) (by decide) (by decide)

/-- C9 (evaluation at the failing input): `z` is not a digit of base 10, yet
`decodeValue("1z", 10)` returns a value together with a nil error. -/
theorem decodeValue_invalid_digit_nil_error :
    ¬ ValidDigit 10 'z' ∧ ∃ v : Int, decodeValue "1z" 10 = Except.ok (v, none) := by
  exact ⟨by decide, 1, rfl⟩

/-- C10 (counterexample): bases 37 and 0 lie outside `[2, 36]`, yet
`decodeValue("10", 37)` returns 37 and `decodeValue("10", 0)` returns 10, both with
a nil error; and for the empty string the base 1 is never examined. -/
theorem decodeValue_base_outside_range_returns :
    decodeValue "10" 37 = Except.ok (37, none) ∧
    decodeValue "10" 0 = Except.ok (10, none) ∧
    ∃ v : Int, decodeValue "" 1 = Except.ok (v, none) := by
  exact ⟨rfl, rfl, 0, rfl⟩

/-- C10 (amended): for every non-empty string and every base that is negative, equal
to 1, or above 62, `decodeValue` fails (the scanner panics on the invalid number
base) and returns no value. -/
theorem decodeValue_invalid_base (s : String) (b : Int) (hne : s.data ≠ [])
    (hb : b < 0 ∨ b = 1 ∨ 62 < b) :
    decodeValue s b = Except.error Panic.invalidNumberBase ∧
      ∀ r : Int × Option String, decodeValue s b ≠ Except.ok r := by
  have hbase : ¬ (b = 0 ∨ (2 ≤ b ∧ b ≤ (MaxBase : Int))) := by
    simp only [MaxBase]; push_cast; omega
  have hscan : ∀ r : List Char, natScan r b = Except.error Panic.invalidNumberBase := by
    intro r
    simp only [natScan, hbase, not_false_eq_true, if_true]
  have hp : decodeValue s b = Except.error Panic.invalidNumberBase := by
    obtain ⟨c, t, hs⟩ := List.exists_cons_of_ne_nil hne
    unfold decodeValue SetString
    rw [hs]
    simp only [scanSign]
    split_ifs <;> simp [hscan]
  refine ⟨hp, ?_⟩
  intro r hr
  rw [hp] at hr
  cases hr

/-- Witness of the amended C10 at the string `10` in base 63. -/
theorem decodeValue_invalid_base_witness :
    decodeValue "10" 63 = Except.error Panic.invalidNumberBase ∧
      ∀ r : Int × Option String, decodeValue "10" 63 ≠ Except.ok r :=
  decodeValue_invalid_base "10" 63 (by decide) (by decide)

/-! ## Lemmas on digit strings and their rendering -/

/-- The Horner accumulation from zero, as a number given by its digits. -/
theorem horner_eq_ofDigits (b : Nat) (l : List Char) (a : Nat) :
    l.foldl (fun a c => a * b + specDigit c) a =
      Nat.ofDigits b (l.reverse.map specDigit) + a * b ^ l.length := by
  induction l generalizing a with
  | nil => simp
  | cons c t ih =>
    rw [List.foldl_cons, ih]
    simp [Nat.ofDigits_append, pow_succ]
    ring

/-- Leading zeros do not change the Horner accumulation from zero. -/
theorem horner_dropWhile_zero (b : Nat) (l : List Char) :
    l.foldl (fun a c => a * b + specDigit c) 0 =
      (l.dropWhile (fun c => c = '0')).foldl (fun a c => a * b + specDigit c) 0 := by
  induction l with
  | nil => simp
  | cons c t ih =>
    by_cases hc : c = '0'
    · subst hc
      have h0 : specDigit '0' = 0 := rfl
      simp [List.dropWhile, h0, ih]
    · simp [List.dropWhile, hc]

/-- Two characters with the same code are equal. -/
theorem char_eq_of_toNat_eq (c d : Char) (h : c.toNat = d.toNat) : c = d := by
  rw [← Char.ofNat_toNat c, ← Char.ofNat_toNat d, h]

/-- The code of the digit character of a value below 36. -/
theorem digitAlphabet_toNat :
    ∀ d < 36, (digitAlphabet.getD d '0').toNat = if d < 10 then 48 + d else 87 + d := by
  decide

/-- The digit character of the value of a valid digit is that digit. -/
theorem digitAlphabet_specDigit (b : Int) (c : Char) (hv : ValidDigit b c) :
    digitAlphabet.getD (specDigit c) '0' = c := by
  have h0 : '0'.toNat = 48 := rfl
  have h9 : '9'.toNat = 57 := rfl
  have ha : 'a'.toNat = 97 := rfl
  have hz : 'z'.toNat = 122 := rfl
  obtain ⟨hrange, _⟩ := hv
  simp only [h0, h9, ha, hz] at hrange
  apply char_eq_of_toNat_eq
  have hd : specDigit c < 36 := by
    unfold specDigit
    simp only [h9, h0, ha]
    split_ifs <;> omega
  rw [digitAlphabet_toNat _ hd]
  unfold specDigit
  simp only [h9, h0, ha]
  split_ifs <;> omega

/-- Among valid digits only the character `0` has the value zero. -/
theorem specDigit_eq_zero_iff (b : Int) (c : Char) (hv : ValidDigit b c) :
    specDigit c = 0 ↔ c = '0' := by
  have h0 : '0'.toNat = 48 := rfl
  have h9 : '9'.toNat = 57 := rfl
  have ha : 'a'.toNat = 97 := rfl
  have hz : 'z'.toNat = 122 := rfl
  obtain ⟨hrange, _⟩ := hv
  simp only [h0, h9, ha, hz] at hrange
  constructor
  · intro h
    apply char_eq_of_toNat_eq
    rw [h0]
    unfold specDigit at h
    simp only [h9, h0, ha] at h
    split_ifs at h
    omega
  · rintro rfl
    rfl

/-- After the leading zeros are dropped the first character, if any, is not `0`. -/
theorem dropWhile_zero_head (l : List Char) (c : Char) (t : List Char)
    (h : l.dropWhile (fun c => c = '0') = c :: t) : c ≠ '0' := by
  induction l with
  | nil => simp at h
  | cons x xs ih =>
    by_cases hx : x = '0'
    · subst hx
      simp [List.dropWhile] at h
      exact ih h
    · simp [List.dropWhile, hx] at h
      rw [← h.1]
      exact hx

/-- The base-`b` digits of the value of a string of valid digits are the values of its
characters after the leading zeros, least significant first. -/
theorem digits_horner (b : Nat) (hb : 1 < b) (l : List Char)
    (hl : ∀ c ∈ l, ValidDigit (b : Int) c) :
    Nat.digits b (l.foldl (fun a c => a * b + specDigit c) 0) =
      ((l.dropWhile (fun c => c = '0')).reverse.map specDigit) := by
  rw [horner_dropWhile_zero, horner_eq_ofDigits]
  simp only [zero_mul, add_zero]
  have hsub : ∀ c ∈ l.dropWhile (fun c => c = '0'), ValidDigit (b : Int) c :=
    fun c hc => hl c ((List.dropWhile_sublist _).subset hc)
  cases hdw : l.dropWhile (fun c => c = '0') with
  | nil => simp
  | cons c t =>
    rw [hdw] at hsub
    have hc0 : specDigit c ≠ 0 := fun e =>
      dropWhile_zero_head l c t hdw
        ((specDigit_eq_zero_iff (b : Int) c (hsub c (List.mem_cons_self _ _))).1 e)
    apply Nat.digits_ofDigits b hb
    · intro d hd
      simp only [List.mem_map, List.mem_reverse] at hd
      obtain ⟨x, hx, rfl⟩ := hd
      have := (hsub x hx).2
      exact_mod_cast this
    · intro _
      simp [hc0]

/-- Rendering the value of a non-empty string of valid digits gives the string
without its leading zeros. -/
theorem text_horner (b : Int) (hb2 : 2 ≤ b) (hb36 : b ≤ 36) (l : List Char)
    (hl : ∀ c ∈ l, ValidDigit b c) :
    Text ((l.foldl (fun a c => a * b.toNat + specDigit c) 0 : Nat) : Int) b =
      Except.ok (stripLeadingZeros l) := by
  have hbnat : ((b.toNat : Nat) : Int) = b := Int.toNat_of_nonneg (by omega)
  have hb1 : 1 < b.toNat := by omega
  have hl2 : ∀ c ∈ l, ValidDigit ((b.toNat : Nat) : Int) c := by rw [hbnat]; exact hl
  have hdig := digits_horner b.toNat hb1 l hl2
  have hbase : ¬ (b < 2 ∨ b > (MaxBase : Int)) := by
    simp only [MaxBase]; push_cast; omega
  have hsub : ∀ c ∈ l.dropWhile (fun c => c = '0'), ValidDigit b c :=
    fun c hc => hl c ((List.dropWhile_sublist _).subset hc)
  unfold Text itoa stripLeadingZeros
  rw [if_neg hbase]
  simp only [Int.natAbs_ofNat]
  by_cases hnil : l.dropWhile (fun c => c = '0') = []
  · have hz : l.foldl (fun a c => a * b.toNat + specDigit c) 0 = 0 := by
      apply Nat.digits_eq_nil_iff_eq_zero.1
      rw [hdig, hnil]; rfl
    simp [hz, hnil]
  · have hz : l.foldl (fun a c => a * b.toNat + specDigit c) 0 ≠ 0 := by
      intro e
      have := (Nat.digits_eq_nil_iff_eq_zero (b := b.toNat)).2 e
      rw [hdig, List.map_eq_nil_iff, List.reverse_eq_nil_iff] at this
      exact hnil this
    have hneg : ¬ (((l.foldl (fun a c => a * b.toNat + specDigit c) 0 : Nat) : Int) < 0) := by
      omega
    rw [if_neg hz, if_neg hnil, hdig]
    simp only [hneg, decide_False, Bool.false_eq_true, if_false, List.nil_append,
      ← List.map_reverse, List.reverse_reverse, List.map_map]
    congr 1
    conv_rhs => rw [← List.map_id (l.dropWhile (fun c => c = '0'))]
    apply List.map_congr_left
    intro c hc
    exact digitAlphabet_specDigit b c (hsub c hc)

/-- On a non-empty string of valid digits of a base in `[2, 36]` the decoder returns
the Horner accumulation of the digits, with a nil error. -/
theorem decodeValue_eq_horner (b : Int) (s : String) (hb2 : 2 ≤ b) (hb36 : b ≤ 36)
    (hne : s.data ≠ []) (hv : ∀ c ∈ s.data, ValidDigit b c) :
    decodeValue s b =
      Except.ok (((s.data.foldl (fun a c => a * b.toNat + specDigit c) 0 : Nat) : Int), none) := by
  obtain ⟨c, t, hs⟩ := List.exists_cons_of_ne_nil hne
  have hc := validDigit_not_sign b c (hv c (by simp [hs]))
  have hsign : scanSign s.data = some (false, s.data) := by
    simp [hs, scanSign, hc.1, hc.2]
  have hb0 : b ≠ 0 := by omega
  have hbase : b = 0 ∨ (2 ≤ b ∧ b ≤ (MaxBase : Int)) := by
    simp only [MaxBase]; push_cast; omega
  have hl : ∀ x ∈ s.data, digitVal x b.toNat = specDigit x ∧ specDigit x < b.toNat :=
    fun x hx => digitVal_of_validDigit b x (hv x hx)
  have hlen : 0 < s.data.length := List.length_pos.2 hne
  have hcount : ¬ (0 + s.data.length = 0) := by omega
  have hnat : natScan s.data b =
      Except.ok (s.data.foldl (fun a c => a * b.toNat + specDigit c) 0, none, []) := by
    unfold natScan
    rw [if_neg (not_not.2 hbase)]
    simp only [hb0, if_false, scanDigits_valid b b.toNat hb0 s.data _ hl, hne, hcount]
    simp
  unfold decodeValue SetString
  rw [hsign]
  simp only [hnat]
  simp

/-! ## Claims C11 to C19 -/

/-- C11: for a base `b` in `[2, 36]` and a non-empty lower-case digit string `s` valid in
base `b`, `decodeValue(s, b)` succeeds and rendering its value in base `b`
(`big.Int.Text`) yields `s` with its leading zeros removed, or `0` when `s` is all
zeros. -/
theorem decodeValue_round_trip (b : Int) (s : String) (hb2 : 2 ≤ b) (hb36 : b ≤ 36)
    (hne : s.data ≠ []) (hv : ∀ c ∈ s.data, ValidDigit b c) :
    ∃ v : Int, decodeValue s b = Except.ok (v, none) ∧
      Text v b = Except.ok (stripLeadingZeros s.data) :=
  ⟨_, decodeValue_eq_horner b s hb2 hb36 hne hv, text_horner b hb2 hb36 s.data hv⟩

/-- Witness of C11 at the string `00ff` in base 16, whose rendering is `ff`. -/
theorem decodeValue_round_trip_witness :
    ∃ v : Int, decodeValue "00ff" 16 = Except.ok (v, none) ∧
      Text v 16 = Except.ok (stripLeadingZeros "00ff".data) :=
  decodeValue_round_trip 16 "00ff" (by decide) (by decide) (by decide) (by decide)


/-- C12: for `k >= 1` and at least `k` points, `lagrangeInterpolation(points, k)` equals
`lagrangeInterpolation` of the first `k` points, and replacing the points after the
`k`-th by any others does not change the result. -/
theorem lagrangeInterpolation_first_k (points : List Point) (k : Int) (hk : 1 ≤ k)
    (hlen : k ≤ (points.length : Int)) :
    lagrangeInterpolation points k = lagrangeInterpolation (points.take k.toNat) k ∧
    ∀ others : List Point,
      lagrangeInterpolation (points.take k.toNat ++ others) k =
        lagrangeInterpolation points k := by
  have hk0 : 0 ≤ k := by omega
  have hl : k.toNat ≤ points.length := by omega
  have hlt : (points.take k.toNat).length = k.toNat := by
    simp [List.length_take, hl]
  constructor
  · rw [lagrangeInterpolation_eq_outerLoop points k hk0,
      lagrangeInterpolation_eq_outerLoop (points.take k.toNat) k hk0, List.take_take]
    simp
  · intro others
    rw [lagrangeInterpolation_eq_outerLoop points k hk0,
      lagrangeInterpolation_eq_outerLoop (points.take k.toNat ++ others) k hk0]
    have : (points.take k.toNat ++ others).take k.toNat = points.take k.toNat := by
      rw [List.take_append_of_le_length (by omega)]
      rw [List.take_take]
      simp
    rw [this]

/-- Witness of C12 at four points with `k = 3`. -/
theorem lagrangeInterpolation_first_k_witness :
    lagrangeInterpolation [⟨1, 4⟩, ⟨2, 7⟩, ⟨3, 12⟩, ⟨4, 100⟩] 3 =
        lagrangeInterpolation
          (([⟨1, 4⟩, ⟨2, 7⟩, ⟨3, 12⟩, ⟨4, 100⟩] : List Point).take (3 : Int).toNat) 3 ∧
    ∀ others : List Point,
      lagrangeInterpolation
          (([⟨1, 4⟩, ⟨2, 7⟩, ⟨3, 12⟩, ⟨4, 100⟩] : List Point).take (3 : Int).toNat ++ others) 3 =
        lagrangeInterpolation [⟨1, 4⟩, ⟨2, 7⟩, ⟨3, 12⟩, ⟨4, 100⟩] 3 :=
  lagrangeInterpolation_first_k [⟨1, 4⟩, ⟨2, 7⟩, ⟨3, 12⟩, ⟨4, 100⟩] 3 (by decide) (by decide)


/-! ## Lemmas on the extraction of points -/

/-- On success the loop appends one point per remaining entry, whose `x` is the value
parsed from the key of the entry. -/
theorem extractLoop_map_X (entries : List (String × Root)) (acc pts : List Point)
    (h : extractLoop entries acc = Except.ok (Except.ok pts)) :
    pts.map Point.X = acc.map Point.X ++ entries.map (fun e => keyX e.1) := by
  induction entries generalizing acc with
  | nil =>
    simp only [extractLoop] at h
    cases h
    simp
  | cons e rest ih =>
    obtain ⟨xStr, root⟩ := e
    unfold extractLoop at h
    cases hx : SetString xStr.data 10 with
    | error p => rw [hx] at h; cases h
    | ok r =>
      obtain ⟨x, flag⟩ := r
      rw [hx] at h
      simp only at h
      cases hb : Atoi root.Base.data with
      | none => rw [hb] at h; cases h
      | some base =>
        rw [hb] at h
        simp only at h
        cases hd : decodeValue root.Value base with
        | error p => rw [hd] at h; cases h
        | ok yr =>
          obtain ⟨y, err⟩ := yr
          rw [hd] at h
          cases err with
          | some msg => cases h
          | none =>
            simp only at h
            rw [ih _ h]
            simp [keyX, hx]

/-- On a non-empty run of valid digits of a base in `[2, 36]`, `SetString` succeeds
with the Horner accumulation of the digits. -/
theorem setString_eq_horner (b : Int) (l : List Char) (hb2 : 2 ≤ b) (hb36 : b ≤ 36)
    (hne : l ≠ []) (hv : ∀ c ∈ l, ValidDigit b c) :
    SetString l b =
      Except.ok (((l.foldl (fun a c => a * b.toNat + specDigit c) 0 : Nat) : Int), true) := by
  obtain ⟨c, t, hs⟩ := List.exists_cons_of_ne_nil hne
  have hc := validDigit_not_sign b c (hv c (by simp [hs]))
  have hsign : scanSign l = some (false, l) := by
    simp [hs, scanSign, hc.1, hc.2]
  have hb0 : b ≠ 0 := by omega
  have hbase : b = 0 ∨ (2 ≤ b ∧ b ≤ (MaxBase : Int)) := by
    simp only [MaxBase]; push_cast; omega
  have hl : ∀ x ∈ l, digitVal x b.toNat = specDigit x ∧ specDigit x < b.toNat :=
    fun x hx => digitVal_of_validDigit b x (hv x hx)
  have hlen : 0 < l.length := List.length_pos.2 hne
  have hcount : ¬ (0 + l.length = 0) := by omega
  have hnat : natScan l b =
      Except.ok (l.foldl (fun a c => a * b.toNat + specDigit c) 0, none, []) := by
    unfold natScan
    rw [if_neg (not_not.2 hbase)]
    simp only [hb0, if_false, scanDigits_valid b b.toNat hb0 l _ hl, hne, hcount]
    simp
  unfold SetString
  rw [hsign]
  simp only [hnat]
  simp

/-- The characters of a canonical decimal numeral are valid digits of base 10. -/
theorem canonicalDecimal_valid (l : List Char) (h : CanonicalDecimal l) :
    ∀ c ∈ l, ValidDigit 10 c := by
  intro c hc
  have h0 : '0'.toNat = 48 := rfl
  have h9 : '9'.toNat = 57 := rfl
  have hr := h.2.1 c hc
  refine ⟨Or.inl hr, ?_⟩
  simp only [h0, h9] at hr
  unfold specDigit
  simp only [h0, h9, hr.2, if_true]
  omega

/-- A canonical decimal numeral has no leading zeros to strip. -/
theorem stripLeadingZeros_canonical (l : List Char) (h : CanonicalDecimal l) :
    stripLeadingZeros l = l := by
  obtain ⟨hne, _, hhead⟩ := h
  obtain ⟨c, t, rfl⟩ := List.exists_cons_of_ne_nil hne
  by_cases hc : c = '0'
  · subst hc
    have ht := hhead rfl
    rw [ht]
    rfl
  · simp [stripLeadingZeros, List.dropWhile, hc]

/-- Distinct canonical decimal keys are parsed to distinct x-coordinates. -/
theorem keyX_injective (k1 k2 : String) (h1 : CanonicalDecimal k1.data)
    (h2 : CanonicalDecimal k2.data) (h : keyX k1 = keyX k2) : k1 = k2 := by
  have e1 := setString_eq_horner 10 k1.data (by norm_num) (by norm_num) h1.1
    (canonicalDecimal_valid _ h1)
  have e2 := setString_eq_horner 10 k2.data (by norm_num) (by norm_num) h2.1
    (canonicalDecimal_valid _ h2)
  have t1 := text_horner 10 (by norm_num) (by norm_num) k1.data (canonicalDecimal_valid _ h1)
  have t2 := text_horner 10 (by norm_num) (by norm_num) k2.data (canonicalDecimal_valid _ h2)
  simp only [keyX, e1, e2] at h
  rw [h, t2, stripLeadingZeros_canonical _ h1, stripLeadingZeros_canonical _ h2] at t1
  have hd : k2.data = k1.data := by
    injection t1
  exact (String.ext hd).symm

/-- C13 (counterexample): the distinct root keys `1` and `01` are both parsed to
`x = 1`, so `extractPoints` succeeds with two points sharing the same `x`. -/
theorem extractPoints_duplicate_x :
    ((([("1", ⟨"10", "4"⟩), ("01", ⟨"10", "7"⟩)] : List (String × Root)).map Prod.fst).Nodup) ∧
    extractPoints ⟨2, 2, [("1", ⟨"10", "4"⟩), ("01", ⟨"10", "7"⟩)]⟩ =
      Except.ok (Except.ok [⟨1, 4⟩, ⟨1, 7⟩]) ∧
    ¬ (([⟨1, 4⟩, ⟨1, 7⟩] : List Point).map Point.X).Nodup := by
  refine ⟨by decide, rfl, by decide⟩

/-- C13 (amended): when `extractPoints` succeeds on a test case whose root keys are
pairwise distinct canonical decimal numerals (digits only, no sign, no leading zero),
the returned points have pairwise distinct `x`. -/
theorem extractPoints_distinct_x (testCase : TestCase) (pts : List Point)
    (hok : extractPoints testCase = Except.ok (Except.ok pts))
    (hkeys : (testCase.Roots.map Prod.fst).Nodup)
    (hcanon : ∀ e ∈ testCase.Roots, CanonicalDecimal e.1.data) :
    (pts.map Point.X).Nodup := by
  have hmap := extractLoop_map_X testCase.Roots [] pts hok
  simp only [List.map_nil, List.nil_append] at hmap
  rw [hmap]
  have hcomp : testCase.Roots.map (fun e => keyX e.1) =
      (testCase.Roots.map Prod.fst).map keyX := by
    simp [List.map_map, Function.comp_def]
  rw [hcomp]
  apply List.Nodup.map_on _ hkeys
  intro k1 hk1 k2 hk2 hx
  obtain ⟨e1, he1, rfl⟩ := List.mem_map.1 hk1
  obtain ⟨e2, he2, rfl⟩ := List.mem_map.1 hk2
  exact keyX_injective _ _ (hcanon e1 he1) (hcanon e2 he2) hx

/-- Witness of the amended C13 at the keys `1` and `2`. -/
theorem extractPoints_distinct_x_witness :
    extractPoints ⟨2, 2, [("1", ⟨"10", "4"⟩), ("2", ⟨"10", "7"⟩)]⟩ =
      Except.ok (Except.ok [⟨1, 4⟩, ⟨2, 7⟩]) ∧
    (([⟨1, 4⟩, ⟨2, 7⟩] : List Point).map Point.X).Nodup :=
  ⟨rfl, extractPoints_distinct_x ⟨2, 2, [("1", ⟨"10", "4"⟩), ("2", ⟨"10", "7"⟩)]⟩
    [⟨1, 4⟩, ⟨2, 7⟩] rfl (by decide) (by decide)⟩


/-- C14: for `k >= 1`, when the selected points (the first `min(k, len)`) have pairwise
distinct `x` (zero and negative values included), every per-term denominator
`Π_{j ≠ i} (x_i - x_j)` is non-zero, so no division panics and the function returns
a value, the sum of the per-term quotients. -/
theorem lagrangeInterpolation_no_division_by_zero (points : List Point) (k : Int)
    (hk : 1 ≤ k) (hnd : ((points.take k.toNat).map Point.X).Nodup) :
    (∀ i, i < (points.take k.toNat).length →
      (innerLoop (points.take k.toNat) i).2 ≠ 0) ∧
    lagrangeInterpolation points k =
      Except.ok (((List.range (points.take k.toNat).length).map
        (fun i => Int.ediv (innerLoop (points.take k.toNat) i).1
          (innerLoop (points.take k.toNat) i).2)).sum) := by
  have hden : ∀ i, i < (points.take k.toNat).length →
      (innerLoop (points.take k.toNat) i).2 ≠ 0 :=
    fun i hi => innerLoop_snd_ne_zero _ hnd i hi
  refine ⟨hden, ?_⟩
  rw [lagrangeInterpolation_eq_outerLoop points k (by omega),
    outerLoop_ok _ _ 0 (fun i hi => hden i (List.mem_range.1 hi))]
  simp

/-- Witness of C14 at the points `(0,5), (-3,2), (4,1)` with `k = 3`. -/
theorem lagrangeInterpolation_no_division_by_zero_witness :
    (∀ i, i < (([⟨0, 5⟩, ⟨-3, 2⟩, ⟨4, 1⟩] : List Point).take (3 : Int).toNat).length →
      (innerLoop (([⟨0, 5⟩, ⟨-3, 2⟩, ⟨4, 1⟩] : List Point).take (3 : Int).toNat) i).2 ≠ 0) ∧
    lagrangeInterpolation [⟨0, 5⟩, ⟨-3, 2⟩, ⟨4, 1⟩] 3 =
      Except.ok (((List.range
        (([⟨0, 5⟩, ⟨-3, 2⟩, ⟨4, 1⟩] : List Point).take (3 : Int).toNat).length).map
        (fun i => Int.ediv
          (innerLoop (([⟨0, 5⟩, ⟨-3, 2⟩, ⟨4, 1⟩] : List Point).take (3 : Int).toNat) i).1
          (innerLoop (([⟨0, 5⟩, ⟨-3, 2⟩, ⟨4, 1⟩] : List Point).take (3 : Int).toNat) i).2)).sum) :=
  lagrangeInterpolation_no_division_by_zero [⟨0, 5⟩, ⟨-3, 2⟩, ⟨4, 1⟩] 3 (by decide) (by decide)


/-! ## Lemmas on letter case -/

/-- The code of the lower-cased character. -/
theorem toLower_toNat (c : Char) :
    c.toLower.toNat = if 65 ≤ c.toNat ∧ c.toNat ≤ 90 then c.toNat + 32 else c.toNat := by
  by_cases h : 65 ≤ c.toNat ∧ c.toNat ≤ 90
  · rw [if_pos h]
    have hc : c = Char.ofNat c.toNat := (Char.ofNat_toNat c).symm
    generalize c.toNat = n at h hc
    obtain ⟨h1, h2⟩ := h
    subst hc
    interval_cases n <;> rfl
  · rw [if_neg h]
    unfold Char.toLower
    simp only [ge_iff_le]
    rw [if_neg h]

/-- The code of the upper-cased character. -/
theorem toUpper_toNat (c : Char) :
    c.toUpper.toNat = if 97 ≤ c.toNat ∧ c.toNat ≤ 122 then c.toNat - 32 else c.toNat := by
  by_cases h : 97 ≤ c.toNat ∧ c.toNat ≤ 122
  · rw [if_pos h]
    have hc : c = Char.ofNat c.toNat := (Char.ofNat_toNat c).symm
    generalize c.toNat = n at h hc
    obtain ⟨h1, h2⟩ := h
    subst hc
    interval_cases n <;> rfl
  · rw [if_neg h]
    unfold Char.toUpper
    simp only [ge_iff_le]
    rw [if_neg h]

/-- In a base up to 36 the scanner reads the upper-cased and the lower-cased character
with the same digit value. -/
theorem digitVal_toUpper_eq (c : Char) (b : Nat) (hb : b ≤ 36) :
    digitVal c.toUpper b = digitVal c.toLower b := by
  have h0 : '0'.toNat = 48 := rfl
  have h9 : '9'.toNat = 57 := rfl
  have ha : 'a'.toNat = 97 := rfl
  have hz : 'z'.toNat = 122 := rfl
  have hA : 'A'.toNat = 65 := rfl
  have hZ : 'Z'.toNat = 90 := rfl
  have hb2 : b ≤ maxBaseSmall := hb
  unfold digitVal
  simp only [h0, h9, ha, hz, hA, hZ, toLower_toNat, toUpper_toNat, hb2, if_true]
  split_ifs <;> omega

/-- A character read as a digit is neither a sign nor anything but a letter or digit. -/
theorem digitVal_lt_not_sign (c : Char) (b : Nat) (hb : b ≤ MaxBase)
    (h : digitVal c b < b) : c ≠ '-' ∧ c ≠ '+' := by
  have hm : MaxBase = 62 := rfl
  constructor
  · rintro rfl
    have : digitVal '-' b = 63 := rfl
    omega
  · rintro rfl
    have : digitVal '+' b = 63 := rfl
    omega

/-- On a run of characters that are all digits of the base the digit loop consumes
the whole input and accumulates their digit values by the Horner rule. -/
theorem scanDigits_run (base : Int) (b : Nat) (hbase : base ≠ 0) (l : List Char)
    (st : ScanState) (hl : ∀ c ∈ l, digitVal c b < b) :
    scanDigits base b l st =
      (⟨l.foldl (fun a c => a * b + digitVal c b) st.acc,
        if l = [] then st.prev else '0', st.invalSep, st.count + l.length⟩, []) := by
  induction l generalizing st with
  | nil => simp [scanDigits]
  | cons c t ih =>
    have hlt := hl c (List.mem_cons_self _ _)
    have ht : ∀ x ∈ t, digitVal x b < b := fun x hx => hl x (List.mem_cons_of_mem _ hx)
    have hge : ¬ (digitVal c b ≥ b) := by omega
    rw [scanDigits]
    simp only [hbase, and_false, if_false, hge]
    rw [ih _ ht]
    simp [Nat.add_assoc, Nat.add_comm 1]

/-- On a non-empty string whose characters are all digits of a base in `[2, 62]`, the
decoder returns the Horner accumulation of their digit values, with a nil error. -/
theorem decodeValue_of_digits (b : Int) (s : String) (hb2 : 2 ≤ b) (hb62 : b ≤ 62)
    (hne : s.data ≠ []) (hd : ∀ c ∈ s.data, digitVal c b.toNat < b.toNat) :
    decodeValue s b =
      Except.ok (((s.data.foldl (fun a c => a * b.toNat + digitVal c b.toNat) 0 : Nat) : Int),
        none) := by
  obtain ⟨c, t, hs⟩ := List.exists_cons_of_ne_nil hne
  have hbm : b.toNat ≤ MaxBase := by simp only [MaxBase]; omega
  have hc := digitVal_lt_not_sign c b.toNat hbm (hd c (by simp [hs]))
  have hsign : scanSign s.data = some (false, s.data) := by
    simp [hs, scanSign, hc.1, hc.2]
  have hb0 : b ≠ 0 := by omega
  have hbase : b = 0 ∨ (2 ≤ b ∧ b ≤ (MaxBase : Int)) := by
    simp only [MaxBase]; push_cast; omega
  have hlen : 0 < s.data.length := List.length_pos.2 hne
  have hcount : ¬ (0 + s.data.length = 0) := by omega
  have hnat : natScan s.data b =
      Except.ok (s.data.foldl (fun a c => a * b.toNat + digitVal c b.toNat) 0, none, []) := by
    unfold natScan
    rw [if_neg (not_not.2 hbase)]
    simp only [hb0, if_false, scanDigits_run b b.toNat hb0 s.data _ hd, hne, hcount]
    simp
  unfold decodeValue SetString
  rw [hsign]
  simp only [hnat]
  simp

/-- C15: for a base `b` in `[2, 36]` and a digit string `s` valid in base `b` (letters in
either case), `decodeValue` of `s` upper-cased equals `decodeValue` of `s`
lower-cased; `FF` and `ff` in base 16 both give 255. -/
theorem decodeValue_case_insensitive (b : Int) (s : String) (hb2 : 2 ≤ b) (hb36 : b ≤ 36)
    (hv : ∀ c ∈ s.data, ValidDigit b c.toLower) :
    decodeValue (upperCased s) b = decodeValue (lowerCased s) b ∧
    decodeValue "FF" 16 = Except.ok (255, none) ∧
    decodeValue "ff" 16 = Except.ok (255, none) := by
  refine ⟨?_, rfl, rfl⟩
  by_cases hne : s.data = []
  · simp [upperCased, lowerCased, hne]
  · have hb : b.toNat ≤ 36 := by omega
    have hlow : ∀ c ∈ s.data, digitVal c.toLower b.toNat < b.toNat := by
      intro c hc
      have := digitVal_of_validDigit b c.toLower (hv c hc)
      omega
    have hup : ∀ c ∈ s.data, digitVal c.toUpper b.toNat < b.toNat := by
      intro c hc
      rw [digitVal_toUpper_eq c b.toNat hb]
      exact hlow c hc
    rw [decodeValue_of_digits b (upperCased s) hb2 (by omega) (by simpa [upperCased] using hne)
        (by simpa [upperCased] using hup),
      decodeValue_of_digits b (lowerCased s) hb2 (by omega) (by simpa [lowerCased] using hne)
        (by simpa [lowerCased] using hlow)]
    simp only [upperCased, lowerCased, List.foldl_map, digitVal_toUpper_eq _ b.toNat hb]

/-- Witness of C15 at the mixed-case string `1aF` in base 16. -/
theorem decodeValue_case_insensitive_witness :
    decodeValue (upperCased "1aF") 16 = decodeValue (lowerCased "1aF") 16 ∧
    decodeValue "FF" 16 = Except.ok (255, none) ∧
    decodeValue "ff" 16 = Except.ok (255, none) :=
  decodeValue_case_insensitive 16 "1aF" (by decide) (by decide) (by decide)


/-! ## The interpolation sum over the list of points -/

/-- Mapping the indices of a list to its elements gives the list. -/
theorem map_getD_range {α β : Type} (l : List α) (d : α) (g : α → β) :
    (List.range l.length).map (fun j => g (l.getD j d)) = l.map g := by
  induction l with
  | nil => simp
  | cons x xs ih =>
    rw [List.length_cons, List.range_succ_eq_map]
    simp only [List.map_cons, List.map_map, List.getD_cons_zero]
    congr 1

/-- Mapping the indices other than `i` to the elements gives the list without its
`i`-th element. -/
theorem map_getD_filter_range {α β : Type} (l : List α) (d : α) (g : α → β) (i : Nat) :
    ((List.range l.length).filter (fun j => j ≠ i)).map (fun j => g (l.getD j d)) =
      (l.eraseIdx i).map g := by
  induction l generalizing i with
  | nil => simp
  | cons x xs ih =>
    rw [List.length_cons, List.range_succ_eq_map]
    cases i with
    | zero =>
      simp only [List.eraseIdx_cons_zero]
      rw [List.filter_cons_of_neg (by simp), List.filter_map]
      rw [← map_getD_range xs d g]
      simp only [List.map_map]
      have : List.filter ((fun j => decide (j ≠ 0)) ∘ Nat.succ) (List.range xs.length)
          = List.range xs.length := by
        apply List.filter_eq_self.2
        intro j _
        simp
      rw [this]
      apply List.map_congr_left
      intro j _
      simp
    | succ i =>
      simp only [List.eraseIdx_cons_succ, List.map_cons]
      rw [List.filter_cons_of_pos (by simp), List.filter_map]
      simp only [List.map_cons, List.getD_cons_zero, List.map_map]
      congr 1
      rw [← ih i]
      have : List.filter ((fun j => decide (j ≠ i + 1)) ∘ Nat.succ) (List.range xs.length)
          = List.filter (fun j => decide (j ≠ i)) (List.range xs.length) := by
        apply List.filter_congr
        intro j _
        simp
      rw [this]
      apply List.map_congr_left
      intro j _
      simp

/-- The numerator of term `i` over the list of the other points. -/
theorem innerLoop_fst_eraseIdx (points : List Point) (i : Nat) :
    (innerLoop points i).1 =
      (pointAt points i).Y * ((points.eraseIdx i).map (fun q => -q.X)).prod := by
  rw [innerLoop_fst]
  unfold pointAt
  rw [map_getD_filter_range points ⟨0, 0⟩ (fun q => -q.X) i]

/-- The denominator of term `i` over the list of the other points. -/
theorem innerLoop_snd_eraseIdx (points : List Point) (i : Nat) :
    (innerLoop points i).2 =
      ((points.eraseIdx i).map (fun q => (pointAt points i).X - q.X)).prod := by
  rw [innerLoop_snd]
  have := map_getD_filter_range points ⟨0, 0⟩ (fun q => (pointAt points i).X - q.X) i
  unfold pointAt at this ⊢
  rw [this]

/-- The quotient of term `i` is the term of the point `points[i]` against the others. -/
theorem ediv_innerLoop_eq_termOf (points : List Point) (i : Nat) :
    Int.ediv (innerLoop points i).1 (innerLoop points i).2 =
      termOf (pointAt points i) (points.eraseIdx i) := by
  rw [innerLoop_fst_eraseIdx, innerLoop_snd_eraseIdx]
  rfl

/-- With pairwise distinct x-coordinates, removing index `i` removes the point
`points[i]`. -/
theorem eraseIdx_eq_erase (points : List Point) (hnd : (points.map Point.X).Nodup)
    (i : Nat) (hi : i < points.length) :
    points.eraseIdx i = points.erase (pointAt points i) := by
  have hp : points.Nodup := List.Nodup.of_map _ hnd
  have : pointAt points i = points[i] := by
    simp [pointAt, List.getElem?_eq_getElem hi]
  rw [this, List.Nodup.erase_getElem hp]

/-- With pairwise distinct x-coordinates the outer loop returns the sum, over the
points, of the term of each point against the other points. -/
theorem outerLoop_eq_sum_termOf (points : List Point) (hnd : (points.map Point.X).Nodup) :
    outerLoop points (List.range points.length) 0 =
      Except.ok ((points.map (fun p => termOf p (points.erase p))).sum) := by
  rw [outerLoop_ok points _ 0
    (fun i hi => innerLoop_snd_ne_zero points hnd i (List.mem_range.1 hi))]
  rw [zero_add]
  congr 2
  rw [← map_getD_range points ⟨0, 0⟩ (fun p => termOf p (points.erase p))]
  apply List.map_congr_left
  intro i hi
  rw [ediv_innerLoop_eq_termOf, eraseIdx_eq_erase points hnd i (List.mem_range.1 hi)]
  rfl

/-- For `k >= 0` and selected points with pairwise distinct x-coordinates,
`lagrangeInterpolation` returns the sum of the terms of the selected points. -/
theorem lagrangeInterpolation_eq_sum_termOf (points : List Point) (k : Int) (hk : 0 ≤ k)
    (hnd : ((points.take k.toNat).map Point.X).Nodup) :
    lagrangeInterpolation points k =
      Except.ok (((points.take k.toNat).map
        (fun p => termOf p ((points.take k.toNat).erase p))).sum) := by
  rw [lagrangeInterpolation_eq_outerLoop points k hk, outerLoop_eq_sum_termOf _ hnd]

/-- The term of a point does not depend on the order of the other points. -/
theorem termOf_perm (p : Point) (l1 l2 : List Point) (h : l1.Perm l2) :
    termOf p l1 = termOf p l2 := by
  unfold termOf
  rw [(h.map (fun q => -q.X)).prod_eq, (h.map (fun q => p.X - q.X)).prod_eq]

/-- The sum of the terms does not depend on the order of the points. -/
theorem sum_termOf_perm (l1 l2 : List Point) (h : l1.Perm l2) :
    (l1.map (fun p => termOf p (l1.erase p))).sum =
      (l2.map (fun p => termOf p (l2.erase p))).sum := by
  have hf : (fun p => termOf p (l1.erase p)) = (fun p => termOf p (l2.erase p)) := by
    funext p
    exact termOf_perm p _ _ (h.erase p)
  rw [hf]
  exact (h.map _).sum_eq

/-! ## Products over consecutive abscissas -/

/-- The product `Π_{j < n} (-(j + 1))` is `(-1)^n * n!`. -/
theorem prod_neg_succ (n : Nat) :
    ∏ j in Finset.range n, (-((j : Int) + 1)) = (-1) ^ n * (n.factorial : Int) := by
  induction n with
  | zero => simp
  | succ n ih =>
    rw [Finset.prod_range_succ, ih, Nat.factorial_succ]
    push_cast
    ring

/-- The product `Π_{j < a} (a - j)` is `a!`. -/
theorem prod_down (a : Nat) :
    ∏ j in Finset.range a, ((a : Int) - (j : Int)) = (a.factorial : Int) := by
  have h := Nat.descFactorial_eq_prod_range a a
  rw [Nat.descFactorial_self] at h
  rw [h]
  push_cast
  apply Finset.prod_congr rfl
  intro j hj
  have : j ≤ a := le_of_lt (Finset.mem_range.1 hj)
  push_cast [Nat.cast_sub this]
  ring

/-- The product `Π_{a < j < k} (a - j)` is `(-1)^(k-a-1) * (k-a-1)!`. -/
theorem prod_up (a k : Nat) :
    ∏ j in Finset.Ico (a + 1) k, ((a : Int) - (j : Int)) =
      (-1) ^ (k - (a + 1)) * ((k - (a + 1)).factorial : Int) := by
  rw [Finset.prod_Ico_eq_prod_range, ← prod_neg_succ]
  apply Finset.prod_congr rfl
  intro j _
  push_cast
  ring

/-- A product over the indices below `k` other than `a` splits at `a`. -/
theorem prod_erase_split (a k : Nat) (h : a < k) (f : Nat → Int) :
    ∏ j in (Finset.range k).erase a, f j =
      (∏ j in Finset.range a, f j) * ∏ j in Finset.Ico (a + 1) k, f j := by
  have hset : (Finset.range k).erase a = Finset.range a ∪ Finset.Ico (a + 1) k := by
    ext j
    simp only [Finset.mem_erase, Finset.mem_range, Finset.mem_union, Finset.mem_Ico]
    omega
  have hdis : Disjoint (Finset.range a) (Finset.Ico (a + 1) k) := by
    rw [Finset.disjoint_left]
    intro j hj hj2
    simp only [Finset.mem_range, Finset.mem_Ico] at hj hj2
    omega
  rw [hset, Finset.prod_union hdis]

/-- For the abscissas `1, ..., k`, the numerator product `Π_{j ≠ a} (-(j+1))` is the
denominator product `Π_{j ≠ a} ((a+1) - (j+1))` times the signed binomial coefficient
`(-1)^a * C(k, a+1)`; the denominator product is not zero. -/
theorem prod_consecutive (a k : Nat) (h : a < k) :
    (∏ j in (Finset.range k).erase a, (-((j : Int) + 1)) =
      (∏ j in (Finset.range k).erase a, (((a : Int) + 1) - ((j : Int) + 1))) *
        ((-1) ^ a * (Nat.choose k (a + 1) : Int))) ∧
    ∏ j in (Finset.range k).erase a, (((a : Int) + 1) - ((j : Int) + 1)) ≠ 0 := by
  have hD : ∏ j in (Finset.range k).erase a, (((a : Int) + 1) - ((j : Int) + 1)) =
      (a.factorial : Int) * ((-1) ^ (k - (a + 1)) * ((k - (a + 1)).factorial : Int)) := by
    have e : ∀ j : Nat, ((a : Int) + 1) - ((j : Int) + 1) = (a : Int) - (j : Int) := by
      intro j; ring
    simp only [e]
    rw [prod_erase_split a k h, prod_down, prod_up]
  have hfa : (a.factorial : Int) ≠ 0 := by exact_mod_cast Nat.factorial_ne_zero a
  have hfk : ((k - (a + 1)).factorial : Int) ≠ 0 := by
    exact_mod_cast Nat.factorial_ne_zero _
  have hpow : ((-1 : Int) ^ (k - (a + 1))) ≠ 0 := pow_ne_zero _ (by norm_num)
  have hDne : ∏ j in (Finset.range k).erase a, (((a : Int) + 1) - ((j : Int) + 1)) ≠ 0 := by
    rw [hD]
    exact mul_ne_zero hfa (mul_ne_zero hpow hfk)
  refine ⟨?_, hDne⟩
  -- multiply both sides by the missing factor `-(a + 1)`
  have hall : (-((a : Int) + 1)) * ∏ j in (Finset.range k).erase a, (-((j : Int) + 1)) =
      (-1) ^ k * (k.factorial : Int) := by
    rw [Finset.mul_prod_erase (Finset.range k) (fun j => -((j : Int) + 1))
      (Finset.mem_range.2 h), prod_neg_succ]
  have hchoose : (Nat.choose k (a + 1) : Int) * ((a + 1).factorial : Int) *
      ((k - (a + 1)).factorial : Int) = (k.factorial : Int) := by
    exact_mod_cast Nat.choose_mul_factorial_mul_factorial (Nat.succ_le_of_lt h)
  have hne : (-((a : Int) + 1)) ≠ 0 := by omega
  apply mul_left_cancel₀ hne
  rw [hall, hD, ← hchoose, Nat.factorial_succ]
  have hk : k = (k - (a + 1)) + a + 1 := by omega
  have hsign : ((-1 : Int)) ^ k = (-1) ^ (k - (a + 1)) * (-1) ^ a * (-1) := by
    conv_lhs => rw [hk]
    rw [pow_succ, pow_add]
  rw [hsign]
  push_cast
  ring

/-- Erasing an element commutes with a map that is injective on the list. -/
theorem map_erase_of_nodup (l : List Point) (p : Point) (hp : p ∈ l)
    (h : (l.map Point.X).Nodup) : (l.erase p).map Point.X = (l.map Point.X).erase p.X := by
  induction l with
  | nil => simp at hp
  | cons q t ih =>
    rw [List.map_cons, List.nodup_cons] at h
    by_cases hq : q = p
    · subst hq
      simp
    · have hpt : p ∈ t := by
        rcases List.mem_cons.1 hp with e | e
        · exact absurd e.symm hq
        · exact e
      have hqx : q.X ≠ p.X := fun e => h.1 (e ▸ List.mem_map_of_mem Point.X hpt)
      have e1 : (q :: t).erase p = q :: t.erase p :=
        List.erase_cons_tail (by simpa using hq)
      have e2 : (q.X :: t.map Point.X).erase p.X = q.X :: (t.map Point.X).erase p.X :=
        List.erase_cons_tail (by simpa using hqx)
      rw [e1, List.map_cons, List.map_cons, e2, ih hpt h.2]

/-- A list product over the indices below `k` other than `a`, as a finite product. -/
theorem prod_filter_range (k a : Nat) (g : Nat → Int) :
    (((List.range k).erase a).map g).prod = ∏ j in (Finset.range k).erase a, g j := by
  have hnd : ((List.range k).erase a).Nodup := (List.nodup_range k).erase a
  rw [← List.prod_toFinset g hnd]
  congr 1
  ext j
  simp [List.Nodup.mem_erase_iff (List.nodup_range k), and_comm]

/-- For points whose abscissas are `1, ..., k` in some order, the abscissas of the
points other than `p` are those of the indices other than `p.X - 1`. -/
theorem others_perm (points : List Point) (k : Nat)
    (hx : (points.map Point.X).Perm ((List.range k).map (fun j : Nat => (j : Int) + 1)))
    (p : Point) (hp : p ∈ points) :
    p.X.toNat - 1 < k ∧ p.X = ((p.X.toNat - 1 : Nat) : Int) + 1 ∧
    ((points.erase p).map Point.X).Perm
      (((List.range k).erase (p.X.toNat - 1)).map (fun j : Nat => (j : Int) + 1)) := by
  have hnd : (points.map Point.X).Nodup := by
    rw [hx.nodup_iff]
    apply List.Nodup.map _ (List.nodup_range k)
    intro a b hab
    simpa using hab
  have hmem : p.X ∈ (List.range k).map (fun j : Nat => (j : Int) + 1) :=
    hx.subset (List.mem_map_of_mem Point.X hp)
  obtain ⟨a, ha, hpa⟩ := List.mem_map.1 hmem
  have hak : a < k := List.mem_range.1 ha
  have hidx : p.X.toNat - 1 = a := by omega
  rw [hidx]
  refine ⟨hak, hpa.symm, ?_⟩
  rw [map_erase_of_nodup points p hp hnd, ← hpa]
  have hinj : Function.Injective (fun j : Nat => (j : Int) + 1) := by
    intro a b hab
    simpa using hab
  rw [List.map_erase hinj]
  exact hx.erase _

/-- For points whose abscissas are `1, ..., k` in some order, the denominator of the
term of `p` is not zero and its numerator is the denominator times `y` times the
signed binomial coefficient `(-1)^(x-1) * C(k, x)`. -/
theorem term_consecutive (points : List Point) (k : Nat)
    (hx : (points.map Point.X).Perm ((List.range k).map (fun j : Nat => (j : Int) + 1)))
    (p : Point) (hp : p ∈ points) :
    ((points.erase p).map (fun q => p.X - q.X)).prod ≠ 0 ∧
    p.Y * ((points.erase p).map (fun q => -q.X)).prod =
      ((points.erase p).map (fun q => p.X - q.X)).prod *
        (p.Y * ((-1) ^ (p.X.toNat - 1) * (Nat.choose k p.X.toNat : Int))) := by
  obtain ⟨hak, hpa, hperm⟩ := others_perm points k hx p hp
  have hsucc : p.X.toNat = (p.X.toNat - 1) + 1 := by omega
  generalize p.X.toNat - 1 = a at hak hpa hperm hsucc
  have hN : ((points.erase p).map (fun q => -q.X)).prod =
      ∏ j in (Finset.range k).erase a, (-((j : Int) + 1)) := by
    have := (hperm.map (fun m : Int => -m)).prod_eq
    simp only [List.map_map] at this
    rw [← prod_filter_range k a (fun j => -((j : Int) + 1))]
    exact this
  have hD : ((points.erase p).map (fun q => p.X - q.X)).prod =
      ∏ j in (Finset.range k).erase a, (((a : Int) + 1) - ((j : Int) + 1)) := by
    have := (hperm.map (fun m : Int => p.X - m)).prod_eq
    simp only [List.map_map] at this
    rw [← prod_filter_range k a (fun j => ((a : Int) + 1) - ((j : Int) + 1)), ← hpa]
    exact this
  obtain ⟨hmain, hne⟩ := prod_consecutive a k hak
  rw [hN, hD, hsucc]
  refine ⟨hne, ?_⟩
  rw [hmain]
  ring

/-! ## The per-term quotients against the exact rational terms -/

/-- The numerator of term `i`, as a rational, is `y_i * Π_{j ≠ i} (-x_j)`. -/
theorem innerLoop_fst_cast (points : List Point) (i : Nat) :
    (((innerLoop points i).1 : Int) : ℚ) = ((pointAt points i).Y : ℚ) * numProdQ points i := by
  rw [innerLoop_fst, numProdQ]
  push_cast
  simp [List.map_map, Function.comp_def]

/-- The denominator of term `i`, as a rational, is `Π_{j ≠ i} (x_i - x_j)`. -/
theorem innerLoop_snd_cast (points : List Point) (i : Nat) :
    (((innerLoop points i).2 : Int) : ℚ) = denProdQ points i := by
  rw [innerLoop_snd, denProdQ]
  push_cast
  simp [List.map_map, Function.comp_def]

/-- The exact rational Lagrange sum, over the numerators and denominators of the loop. -/
theorem lagrangeSumQ_eq (points : List Point) :
    lagrangeSumQ points =
      ((List.range points.length).map
        (fun i => (((innerLoop points i).1 : Int) : ℚ) / (((innerLoop points i).2 : Int) : ℚ))).sum := by
  unfold lagrangeSumQ
  congr 1
  apply List.map_congr_left
  intro i _
  rw [innerLoop_fst_cast, innerLoop_snd_cast]

/-- A Euclidean quotient is off the exact quotient by less than 1. -/
theorem abs_ediv_sub_lt_one (n d : Int) (hd : d ≠ 0) :
    |((Int.ediv n d : Int) : ℚ) - (n : ℚ) / (d : ℚ)| < 1 := by
  have hdq : (d : ℚ) ≠ 0 := by exact_mod_cast hd
  have hr0 : 0 ≤ n % d := Int.emod_nonneg n hd
  have hr1 : n % d < |d| := Int.emod_lt n hd
  have hsplit : d * (n / d) + n % d = n := Int.ediv_add_emod n d
  have hq : Int.ediv n d = n / d := rfl
  have hcast : (n : ℚ) = (d : ℚ) * ((n / d : Int) : ℚ) + ((n % d : Int) : ℚ) := by
    exact_mod_cast hsplit.symm
  have e : ((Int.ediv n d : Int) : ℚ) - (n : ℚ) / (d : ℚ) = -(((n % d : Int) : ℚ) / (d : ℚ)) := by
    rw [hq]
    field_simp
    rw [hcast]
    ring
  rw [e, abs_neg, abs_div, div_lt_one (abs_pos.2 hdq)]
  have h0 : (0 : ℚ) ≤ ((n % d : Int) : ℚ) := by exact_mod_cast hr0
  rw [abs_of_nonneg h0]
  have : ((n % d : Int) : ℚ) < ((|d| : Int) : ℚ) := by exact_mod_cast hr1
  simpa using this

/-- A sum of terms of absolute value below 1 is at most the number of terms. -/
theorem abs_sum_le_length (idx : List Nat) (a : Nat → ℚ) (h : ∀ i ∈ idx, |a i| < 1) :
    |(idx.map a).sum| ≤ (idx.length : ℚ) := by
  induction idx with
  | nil => simp
  | cons i rest ih =>
    have h1 := h i (List.mem_cons_self _ _)
    have h2 := ih (fun j hj => h j (List.mem_cons_of_mem _ hj))
    rw [List.map_cons, List.sum_cons, List.length_cons]
    push_cast
    have := abs_add (a i) ((rest.map a).sum)
    linarith

/-- A non-empty sum of terms of absolute value below 1 is below the number of terms. -/
theorem abs_sum_lt_length (idx : List Nat) (a : Nat → ℚ) (hne : idx ≠ [])
    (h : ∀ i ∈ idx, |a i| < 1) : |(idx.map a).sum| < (idx.length : ℚ) := by
  obtain ⟨i, rest, rfl⟩ := List.exists_cons_of_ne_nil hne
  have h1 := h i (List.mem_cons_self _ _)
  have h2 := abs_sum_le_length rest a (fun j hj => h j (List.mem_cons_of_mem _ hj))
  rw [List.map_cons, List.sum_cons, List.length_cons]
  push_cast
  have := abs_add (a i) ((rest.map a).sum)
  linarith

/-- C16: for `k >= 1` and exactly `k` points whose abscissas are `1, 2, ..., k`, each
once and in any order, every per-term denominator divides its numerator exactly, with
quotient `y_i` times the signed binomial coefficient `(-1)^(x_i - 1) * C(k, x_i)`; so
`lagrangeInterpolation(points, k)` returns `Σ (-1)^(x-1) * C(k, x) * y` over the
points, which is the exact rational Lagrange value at 0. -/
theorem lagrangeInterpolation_consecutive_abscissas (points : List Point) (k : Nat)
    (hk : 1 ≤ k)
    (hx : (points.map Point.X).Perm ((List.range k).map (fun j : Nat => (j : Int) + 1))) :
    (∀ i, i < points.length →
      (innerLoop points i).2 ∣ (innerLoop points i).1 ∧
      Int.ediv (innerLoop points i).1 (innerLoop points i).2 =
        (pointAt points i).Y *
          ((-1) ^ ((pointAt points i).X.toNat - 1) *
            (Nat.choose k (pointAt points i).X.toNat : Int))) ∧
    lagrangeInterpolation points (k : Int) =
      Except.ok ((points.map
        (fun p => (-1) ^ (p.X.toNat - 1) * (Nat.choose k p.X.toNat : Int) * p.Y)).sum) ∧
    lagrangeSumQ points =
      (((points.map
        (fun p => (-1) ^ (p.X.toNat - 1) * (Nat.choose k p.X.toNat : Int) * p.Y)).sum : Int) : ℚ) := by
  have hlen : points.length = k := by
    have := hx.length_eq
    simpa using this
  have hnd : (points.map Point.X).Nodup := by
    rw [hx.nodup_iff]
    apply List.Nodup.map _ (List.nodup_range k)
    intro a b hab
    simpa using hab
  -- the quotient of every term, by index
  have hidx : ∀ i, i < points.length →
      (innerLoop points i).2 ≠ 0 ∧
      (innerLoop points i).1 = (innerLoop points i).2 *
        ((pointAt points i).Y *
          ((-1) ^ ((pointAt points i).X.toNat - 1) *
            (Nat.choose k (pointAt points i).X.toNat : Int))) := by
    intro i hi
    have hmem : pointAt points i ∈ points := by
      have : pointAt points i = points[i] := by
        simp [pointAt, List.getElem?_eq_getElem hi]
      rw [this]
      exact List.getElem_mem hi
    rw [innerLoop_fst_eraseIdx, innerLoop_snd_eraseIdx, eraseIdx_eq_erase points hnd i hi]
    exact term_consecutive points k hx _ hmem
  have hquot : ∀ i, i < points.length →
      Int.ediv (innerLoop points i).1 (innerLoop points i).2 =
        (pointAt points i).Y *
          ((-1) ^ ((pointAt points i).X.toNat - 1) *
            (Nat.choose k (pointAt points i).X.toNat : Int)) := by
    intro i hi
    obtain ⟨hne, hmul⟩ := hidx i hi
    rw [hmul]
    exact Int.mul_ediv_cancel_left _ hne
  have hsum : ((List.range points.length).map
      (fun i => Int.ediv (innerLoop points i).1 (innerLoop points i).2)).sum =
      (points.map
        (fun p => (-1) ^ (p.X.toNat - 1) * (Nat.choose k p.X.toNat : Int) * p.Y)).sum := by
    rw [← map_getD_range points ⟨0, 0⟩
      (fun p => (-1) ^ (p.X.toNat - 1) * (Nat.choose k p.X.toNat : Int) * p.Y)]
    congr 1
    apply List.map_congr_left
    intro i hi
    rw [hquot i (List.mem_range.1 hi)]
    unfold pointAt
    ring
  refine ⟨?_, ?_, ?_⟩
  · intro i hi
    exact ⟨Dvd.intro _ (hidx i hi).2.symm, hquot i hi⟩
  · have hk0 : (0 : Int) ≤ (k : Int) := by omega
    rw [lagrangeInterpolation_eq_outerLoop points (k : Int) hk0]
    have htake : points.take (k : Int).toNat = points := by
      apply List.take_of_length_le
      simp [hlen]
    rw [htake, outerLoop_ok points _ 0 (fun i hi => (hidx i (List.mem_range.1 hi)).1),
      zero_add, hsum]
  · rw [lagrangeSumQ_eq, ← hsum]
    push_cast
    simp only [List.map_map]
    congr 1
    apply List.map_congr_left
    intro i hi
    obtain ⟨hne, hmul⟩ := hidx i (List.mem_range.1 hi)
    have hneq : (((innerLoop points i).2 : Int) : ℚ) ≠ 0 := by exact_mod_cast hne
    simp only [Function.comp_def]
    rw [div_eq_iff hneq]
    have hq : Int.ediv (innerLoop points i).1 (innerLoop points i).2 * (innerLoop points i).2 =
        (innerLoop points i).1 := by
      rw [hquot i (List.mem_range.1 hi)]
      conv_rhs => rw [hmul]
      ring
    exact_mod_cast hq.symm

/-- Witness of C16 at the points `(2,7), (3,12), (1,4)` with `k = 3`. -/
theorem lagrangeInterpolation_consecutive_abscissas_witness :
    lagrangeInterpolation [⟨2, 7⟩, ⟨3, 12⟩, ⟨1, 4⟩] ((3 : Nat) : Int) =
      Except.ok ((([⟨2, 7⟩, ⟨3, 12⟩, ⟨1, 4⟩] : List Point).map
        (fun p => (-1) ^ (p.X.toNat - 1) * (Nat.choose 3 p.X.toNat : Int) * p.Y)).sum) :=
  (lagrangeInterpolation_consecutive_abscissas [⟨2, 7⟩, ⟨3, 12⟩, ⟨1, 4⟩] 3 (by decide)
    (by decide)).2.1

/-- C17: for points with pairwise distinct `x` and `k >= len(points)`,
`lagrangeInterpolation` returns a value, and the same value for every permutation of
the list. -/
theorem lagrangeInterpolation_perm (points points2 : List Point) (k : Int)
    (hperm : points.Perm points2) (hnd : (points.map Point.X).Nodup)
    (hk : (points.length : Int) ≤ k) :
    lagrangeInterpolation points k = lagrangeInterpolation points2 k ∧
    ∃ v : Int, lagrangeInterpolation points k = Except.ok v := by
  have hk0 : 0 ≤ k := by omega
  have hl1 : points.length ≤ k.toNat := by omega
  have hl2 : points2.length ≤ k.toNat := by rw [← hperm.length_eq]; exact hl1
  have hnd2 : (points2.map Point.X).Nodup := (hperm.map Point.X).nodup_iff.1 hnd
  have e1 := lagrangeInterpolation_eq_sum_termOf points k hk0
    (by rw [List.take_of_length_le hl1]; exact hnd)
  have e2 := lagrangeInterpolation_eq_sum_termOf points2 k hk0
    (by rw [List.take_of_length_le hl2]; exact hnd2)
  rw [List.take_of_length_le hl1] at e1
  rw [List.take_of_length_le hl2] at e2
  refine ⟨?_, _, e1⟩
  rw [e1, e2, sum_termOf_perm points points2 hperm]

/-- Witness of C17 at the points `(1,1), (2,2), (4,4)` and a reordering, with `k = 3`. -/
theorem lagrangeInterpolation_perm_witness :
    lagrangeInterpolation [⟨1, 1⟩, ⟨2, 2⟩, ⟨4, 4⟩] 3 =
      lagrangeInterpolation [⟨4, 4⟩, ⟨1, 1⟩, ⟨2, 2⟩] 3 ∧
    ∃ v : Int, lagrangeInterpolation [⟨1, 1⟩, ⟨2, 2⟩, ⟨4, 4⟩] 3 = Except.ok v :=
  lagrangeInterpolation_perm [⟨1, 1⟩, ⟨2, 2⟩, ⟨4, 4⟩] [⟨4, 4⟩, ⟨1, 1⟩, ⟨2, 2⟩] 3
    (by decide) (by decide) (by decide)

/-- C18 (counterexample): for the empty list and `k = 1` no point is selected
(`m = 0`), the function returns 0 and the exact sum is 0; the difference 0 is not
strictly below `m = 0`. -/
theorem lagrangeInterpolation_error_bound_empty :
    ((([] : List Point).take (1 : Int).toNat).map Point.X).Nodup ∧
    lagrangeInterpolation [] 1 = Except.ok 0 ∧
    ¬ (|((0 : Int) : ℚ) - lagrangeSumQ (([] : List Point).take (1 : Int).toNat)| <
      ((([] : List Point).take (1 : Int).toNat).length : ℚ)) := by
  refine ⟨by decide, rfl, ?_⟩
  simp [lagrangeSumQ]

/-- C18 (amended): for a non-empty list of points and `k >= 1` such that the `m`
selected points have pairwise distinct `x`, the value returned by
`lagrangeInterpolation` differs from the exact rational Lagrange sum of the selected
points by strictly less than `m` in absolute value. -/
theorem lagrangeInterpolation_error_bound (points : List Point) (k : Int) (hk : 1 ≤ k)
    (hne : points ≠ []) (hnd : ((points.take k.toNat).map Point.X).Nodup) :
    ∃ v : Int, lagrangeInterpolation points k = Except.ok v ∧
      |(v : ℚ) - lagrangeSumQ (points.take k.toNat)| <
        ((points.take k.toNat).length : ℚ) := by
  have hsel : points.take k.toNat ≠ [] := by
    obtain ⟨p, t, rfl⟩ := List.exists_cons_of_ne_nil hne
    have : k.toNat = (k.toNat - 1) + 1 := by omega
    rw [this]
    simp
  generalize hs : points.take k.toNat = sel at hnd hsel
  have hden : ∀ i ∈ List.range sel.length, (innerLoop sel i).2 ≠ 0 :=
    fun i hi => innerLoop_snd_ne_zero sel hnd i (List.mem_range.1 hi)
  refine ⟨0 + ((List.range sel.length).map
      (fun i => Int.ediv (innerLoop sel i).1 (innerLoop sel i).2)).sum, ?_, ?_⟩
  · rw [lagrangeInterpolation_eq_outerLoop points k (by omega), hs, outerLoop_ok sel _ 0 hden]
  · rw [lagrangeSumQ_eq, zero_add]
    have hidx : List.range sel.length ≠ [] := by
      intro e
      have := congrArg List.length e
      simp at this
      exact hsel this
    have hb := abs_sum_lt_length (List.range sel.length)
      (fun i => ((Int.ediv (innerLoop sel i).1 (innerLoop sel i).2 : Int) : ℚ) -
        (((innerLoop sel i).1 : Int) : ℚ) / (((innerLoop sel i).2 : Int) : ℚ)) hidx
      (fun i hi => abs_ediv_sub_lt_one _ _ (hden i hi))
    rw [List.length_range] at hb
    have hsum : ∀ (l : List Nat) (f g : Nat → ℚ),
        (l.map (fun i => f i - g i)).sum = (l.map f).sum - (l.map g).sum := by
      intro l f g
      induction l with
      | nil => simp
      | cons x xs ih => simp only [List.map_cons, List.sum_cons, ih]; ring
    rw [hsum] at hb
    have hcast : (((List.range sel.length).map
        (fun i => Int.ediv (innerLoop sel i).1 (innerLoop sel i).2)).sum : Int) =
        (((List.range sel.length).map
          (fun i => ((Int.ediv (innerLoop sel i).1 (innerLoop sel i).2 : Int) : ℚ))).sum : ℚ) := by
      push_cast
      simp [List.map_map, Function.comp_def]
    rw [hcast]
    exact hb

/-- Witness of the amended C18 at the points `(1,0), (3,1)` with `k = 2`. -/
theorem lagrangeInterpolation_error_bound_witness :
    ∃ v : Int, lagrangeInterpolation [⟨1, 0⟩, ⟨3, 1⟩] 2 = Except.ok v ∧
      |(v : ℚ) - lagrangeSumQ (([⟨1, 0⟩, ⟨3, 1⟩] : List Point).take (2 : Int).toNat)| <
        ((([⟨1, 0⟩, ⟨3, 1⟩] : List Point).take (2 : Int).toNat).length : ℚ) :=
  lagrangeInterpolation_error_bound [⟨1, 0⟩, ⟨3, 1⟩] 2 (by decide) (by decide) (by decide)

/-- A sum in which exactly one element of a duplicate-free list contributes. -/
theorem sum_map_single (l : List Point) (F : Point → Int) (p0 : Point) (hl : l.Nodup)
    (hp0 : p0 ∈ l) (hF : ∀ p ∈ l, p ≠ p0 → F p = 0) : (l.map F).sum = F p0 := by
  induction l with
  | nil => simp at hp0
  | cons x xs ih =>
    rw [List.nodup_cons] at hl
    rw [List.map_cons, List.sum_cons]
    by_cases hx : x = p0
    · subst hx
      have hz : (xs.map F).sum = 0 := by
        apply List.sum_eq_zero
        intro v hv
        obtain ⟨q, hq, rfl⟩ := List.mem_map.1 hv
        exact hF q (List.mem_cons_of_mem _ hq) (fun e => hl.1 (e ▸ hq))
      rw [hz, add_zero]
    · have hmem : p0 ∈ xs := by
        rcases List.mem_cons.1 hp0 with e | h
        · exact absurd e.symm hx
        · exact h
      rw [hF x (List.mem_cons_self _ _) hx, zero_add]
      exact ih hl.2 hmem (fun p hp => hF p (List.mem_cons_of_mem _ hp))

/-- C19: for `k >= 1`, when the selected points have pairwise distinct `x` and one of
them has `x = 0`, `lagrangeInterpolation` returns exactly the `y` of that point. -/
theorem lagrangeInterpolation_zero_abscissa (points : List Point) (k : Int) (hk : 1 ≤ k)
    (hnd : ((points.take k.toNat).map Point.X).Nodup) (p0 : Point)
    (hp0 : p0 ∈ points.take k.toNat) (hx : p0.X = 0) :
    lagrangeInterpolation points k = Except.ok p0.Y := by
  rw [lagrangeInterpolation_eq_sum_termOf points k (by omega) hnd]
  generalize points.take k.toNat = sel at hnd hp0
  have hsel : sel.Nodup := List.Nodup.of_map _ hnd
  have hinj := List.inj_on_of_nodup_map hnd
  congr 1
  rw [sum_map_single sel _ p0 hsel hp0]
  · -- the term of the point at `x = 0`: equal numerator and denominator products
    have hden : (List.map (fun q => p0.X - q.X) (sel.erase p0)) =
        (List.map (fun q => -q.X) (sel.erase p0)) := by
      apply List.map_congr_left
      intro q _
      rw [hx, zero_sub]
    have hP : (List.map (fun q => -q.X) (sel.erase p0)).prod ≠ 0 := by
      rw [Ne, List.prod_eq_zero_iff]
      intro h0
      obtain ⟨q, hq, hq0⟩ := List.mem_map.1 h0
      have hqsel : q ∈ sel := List.mem_of_mem_erase hq
      have hqx : q.X = p0.X := by rw [hx]; omega
      have hqp : q = p0 := hinj hqsel hp0 hqx
      rw [hqp] at hq
      exact (List.Nodup.not_mem_erase hsel) hq
    unfold termOf
    rw [hden]
    exact Int.mul_ediv_cancel _ hP
  · -- every other term: the numerator contains the factor `-0`
    intro p hp hne
    have hmem : p0 ∈ sel.erase p := (List.mem_erase_of_ne (fun e => hne e.symm)).2 hp0
    have hnum : (List.map (fun q => -q.X) (sel.erase p)).prod = 0 := by
      rw [List.prod_eq_zero_iff]
      exact List.mem_map.2 ⟨p0, hmem, by rw [hx]; rfl⟩
    unfold termOf
    rw [hnum, mul_zero]
    exact Int.zero_ediv _

/-- Witness of C19 at the points `(2,9), (0,5), (-3,2)` with `k = 3`: the result is 5. -/
theorem lagrangeInterpolation_zero_abscissa_witness :
    lagrangeInterpolation [⟨2, 9⟩, ⟨0, 5⟩, ⟨-3, 2⟩] 3 = Except.ok (5 : Int) :=
  lagrangeInterpolation_zero_abscissa [⟨2, 9⟩, ⟨0, 5⟩, ⟨-3, 2⟩] 3 (by decide) (by decide)
    ⟨0, 5⟩ (by decide) rfl

end PolynomialSecret
